import Mathlib

/-!
Verification development for the openshift-okd-data-gatherer repository.

Shallow embedding of the core synchronization engine:
* `Json` models Python JSON-like values (dicts as insertion-ordered
  association lists, mirroring Python `dict` semantics);
* `normalize_manifest` embeds `data_gatherer/sync/normalize.py`;
* `canonical_json` / `sha256_of_manifest` embed `data_gatherer/util/hash.py`;
* `upsert_workload`, `mark_deleted`, `upsert_node_capacity`,
  `mark_nodes_deleted` embed the SQLite operations of
  `data_gatherer/persistence/db.py` as pure functions over list-backed
  tables;
* `listGo` / `list_resources` embed the pagination/retry loop of
  `data_gatherer/kube/client.py` against a scripted backend;
* `sync_kind` / `finalize` embed `data_gatherer/sync/engine.py`, and
  `sync_run` the fetch-orchestration slice of `data_gatherer/run.py`.

Fallible Python code paths (uncaught exceptions such as `KeyError` or
attribute errors on non-dict values) are modelled with `Option`.
-/

/-!
JSON-like values as manipulated by the Python code.  Objects are
insertion-ordered field sequences, mirroring Python `dict` semantics;
numbers are modelled as integers (the manifests' numeric fields).
`Json`, `JArr` and `JFields` are mutually inductive (rather than nesting
`List`) so that all functions over them are plain structural recursions,
fully evaluable inside the kernel.
-/
mutual
inductive Json where
  | null : Json
  | bool (b : Bool) : Json
  | num (n : Int) : Json
  | str (s : String) : Json
  | arr (xs : JArr) : Json
  | obj (ps : JFields) : Json
inductive JArr where
  | nil : JArr
  | cons (hd : Json) (tl : JArr) : JArr
inductive JFields where
  | nil : JFields
  | cons (k : String) (v : Json) (tl : JFields) : JFields
end

/-- Builds a field sequence from a list of pairs (notation helper). -/
def jfOf : List (String × Json) → JFields
  | [] => .nil
  | (k, v) :: t => .cons k v (jfOf t)

/-- Builds an array from a list of values (notation helper). -/
def jaOf : List Json → JArr
  | [] => .nil
  | v :: t => .cons v (jaOf t)

def JFields.isEmpty : JFields → Bool
  | .nil => true
  | .cons _ _ _ => false

def JArr.isEmpty : JArr → Bool
  | .nil => true
  | .cons _ _ => false

/-- `d.get(k)` / `d[k]` on a Python dict: the value at the first occurrence
of the key. -/
def getKey (k : String) : JFields → Option Json
  | .nil => none
  | .cons k' v t => if k' = k then some v else getKey k t

/-- `d.pop(k, None)` on a Python dict: drop every binding of the key
(Python dicts hold each key at most once; removing all occurrences agrees
with that on the dict-like domain). -/
def eraseKey (k : String) : JFields → JFields
  | .nil => .nil
  | .cons k' v t => if k' = k then eraseKey k t else .cons k' v (eraseKey k t)

/-- `d[k] = v` on a Python dict: overwrite the first occurrence in place
(keeping its position), append at the end otherwise. -/
def setKey (k : String) (v : Json) : JFields → JFields
  | .nil => .cons k v .nil
  | .cons k' w t => if k' = k then .cons k v t else .cons k' w (setKey k v t)

/-- Python truthiness of a JSON-like value (`or \x7b\x7d` semantics). -/
def isFalsy : Json → Bool
  | .null => true
  | .bool b => !b
  | .num n => n == 0
  | .str s => s == ""
  | .arr xs => xs.isEmpty
  | .obj ps => ps.isEmpty

/-- Views a value as a Python dict; any other value makes the mutating
dict operations of the source raise, modelled as `none` downstream. -/
def asObj : Json → Option JFields
  | .obj ps => some ps
  | _ => none

/-! ## sync/normalize.py -/

def STRIP_METADATA_FIELDS : List String :=
  ["managedFields", "creationTimestamp", "resourceVersion", "uid", "generation"]

def SYSTEM_ANNOTATION_PREFIXES : List String :=
  ["kubectl.kubernetes.io/", "deployment.kubernetes.io/", "openshift.io/generated-by"]

def REMOVE_TOP_LEVEL : List String := ["status"]

/-- `k.startswith(pre)`, via the character lists (definitionally
reducible, unlike `String.isPrefixOf`'s byte-position loop). -/
def startsWith (pre k : String) : Bool := pre.data.isPrefixOf k.data

/-- The annotation filter comprehension of `normalize_manifest`:
keep a key unless it starts with a system prefix. -/
def filterAnn : JFields → JFields
  | .nil => .nil
  | .cons k v t =>
    if !(SYSTEM_ANNOTATION_PREFIXES.any (fun pre => startsWith pre k)) then
      .cons k v (filterAnn t)
    else filterAnn t

/-- The `for f in FIELDS: d.pop(f, None)` loops of `normalize_manifest`.
Distinct-key erasures commute, so the fixed fold order is faithful to the
source's set-iteration order. -/
def eraseFold (fs : List String) (m : JFields) : JFields :=
  fs.foldl (fun m f => eraseKey f m) m

/-- The metadata part of `normalize_manifest`: strip the volatile fields,
then filter annotations; `none` models a raised exception (the
`annotations` value being a truthy non-dict). -/
def normalizeMeta (meta0 : JFields) : Option JFields :=
  let meta := eraseFold STRIP_METADATA_FIELDS meta0
  let annPairs : Option JFields :=
    match getKey "annotations" meta with
    | none => some .nil                              -- meta.get(...) or \x7b\x7d
    | some j => if isFalsy j then some .nil else asObj j
  match annPairs with
  | none => none
  | some ann =>
    let filtered := filterAnn ann
    if !filtered.isEmpty then some (setKey "annotations" (Json.obj filtered) meta)
    else if (getKey "annotations" meta).isSome then some (eraseKey "annotations" meta)
    else some meta

/-- `normalize_manifest` of `sync/normalize.py` over a raw object (a
Python dict).  The deep copy is implicit (pure values); the in-place
mutation of the aliased `meta` dict is modelled by writing the new
metadata back at its key.  `none` models a raised exception on a
non-dict `metadata` value. -/
def normalize_manifest (ps : JFields) : Option JFields :=
  let base := eraseFold REMOVE_TOP_LEVEL ps
  match getKey "metadata" base with
  | none => some base           -- meta is a fresh dict; its mutations are dropped
  | some mj =>
    match asObj mj with
    | none => none              -- meta.pop on a non-dict raises
    | some meta =>
      match normalizeMeta meta with
      | none => none
      | some meta2 => some (setKey "metadata" (Json.obj meta2) base)

/-! ## util/hash.py — canonical JSON -/

/-- Lexicographic comparison of character lists by code point — exactly
Python's `str` ordering, and kernel-reducible (Mathlib's `String`
order decision procedure is not). -/
def charListLe : List Char → List Char → Bool
  | [], _ => true
  | _ :: _, [] => false
  | a :: as, b :: bs => if a = b then charListLe as bs else decide (a.toNat < b.toNat)

/-- `a <= b` on Python strings. -/
def keyLe (a b : String) : Bool := charListLe a.data b.data

/-- Stable insertion of a pair into a key-sorted list, comparing only keys
(Python's sort is stable; `sort_keys` compares the string keys). -/
def insertPair {β : Type} (p : String × β) : List (String × β) → List (String × β)
  | [] => [p]
  | q :: qs => if keyLe p.1 q.1 then p :: q :: qs else q :: insertPair p qs

/-- Stable insertion sort of an association list by key, the order
`json.dumps(..., sort_keys=True)` emits object members in. -/
def sortPairs {β : Type} : List (String × β) → List (String × β)
  | [] => []
  | p :: ps => insertPair p (sortPairs ps)

def hexDigit (n : Nat) : Char :=
  if n < 10 then Char.ofNat (48 + n) else Char.ofNat (87 + n)

def hex4 (n : Nat) : String :=
  String.mk [hexDigit (n / 4096 % 16), hexDigit (n / 256 % 16), hexDigit (n / 16 % 16),
    hexDigit (n % 16)]

/-- JSON string escaping as `json.dumps` does with its default
`ensure_ascii=True`: raw for printable ASCII, two-character escapes for
the usual control characters, `\uXXXX` otherwise (surrogate pairs beyond
the BMP). -/
def escChar (c : Char) : String :=
  let n := c.toNat
  if c = '"' then "\\\""
  else if c = '\\' then "\\\\"
  else if c = '\n' then "\\n"
  else if c = '\t' then "\\t"
  else if c = '\r' then "\\r"
  else if n = 8 then "\\b"
  else if n = 12 then "\\f"
  else if n < 32 then "\\u" ++ hex4 n
  else if n < 127 then String.singleton c
  else if n < 65536 then "\\u" ++ hex4 n
  else
    let m := n - 65536
    "\\u" ++ hex4 (55296 + m / 1024) ++ "\\u" ++ hex4 (56320 + m % 1024)

def serStr (s : String) : String :=
  "\"" ++ String.join (s.data.map escChar) ++ "\""

def joinComma : List String → String
  | [] => ""
  | [x] => x
  | x :: xs => x ++ "," ++ joinComma xs

mutual
/-- `json.dumps(data, sort_keys=True, separators=(",", ":"))` of
`canonical_json`.  Object members are serialized and then stably sorted
by key; since the comparison looks only at keys and both orders are
stable, this emits exactly what sorting the pairs first would. -/
def serialize : Json → String
  | .null => "null"
  | .bool true => "true"
  | .bool false => "false"
  | .num n => toString n
  | .str s => serStr s
  | .arr xs => "[" ++ joinComma (serArr xs) ++ "]"
  | .obj ps =>
    "\x7b" ++ joinComma ((sortPairs (serPairs ps)).map (fun p => serStr p.1 ++ ":" ++ p.2)) ++
      "\x7d"
/-- Serializes the elements of an array, in order. -/
def serArr : JArr → List String
  | .nil => []
  | .cons x xs => serialize x :: serArr xs
/-- Serializes the values of an object's fields, keeping keys and order. -/
def serPairs : JFields → List (String × String)
  | .nil => []
  | .cons k v ps => (k, serialize v) :: serPairs ps
end

/-- `canonical_json` of `util/hash.py`. -/
def canonical_json (j : Json) : String := serialize j

/-! ## util/hash.py — SHA-256 (FIPS 180-4, as `hashlib.sha256`) -/

namespace SHA256

def M32 : Nat := 4294967296

def rotr (n x : Nat) : Nat := ((x >>> n) ||| (x <<< (32 - n))) % M32

def bsig0 (x : Nat) : Nat := (rotr 2 x) ^^^ (rotr 13 x) ^^^ (rotr 22 x)
def bsig1 (x : Nat) : Nat := (rotr 6 x) ^^^ (rotr 11 x) ^^^ (rotr 25 x)
def ssig0 (x : Nat) : Nat := (rotr 7 x) ^^^ (rotr 18 x) ^^^ (x >>> 3)
def ssig1 (x : Nat) : Nat := (rotr 17 x) ^^^ (rotr 19 x) ^^^ (x >>> 10)
def ch (x y z : Nat) : Nat := (x &&& y) ^^^ ((x ^^^ 4294967295) &&& z)
def maj (x y z : Nat) : Nat := (x &&& y) ^^^ (x &&& z) ^^^ (y &&& z)

def K : List Nat :=
  [1116352408, 1899447441, 3049323471, 3921009573, 961987163, 1508970993, 2453635748,
   2870763221, 3624381080, 310598401, 607225278, 1426881987, 1925078388, 2162078206,
   2614888103, 3248222580, 3835390401, 4022224774, 264347078, 604807628, 770255983,
   1249150122, 1555081692, 1996064986, 2554220882, 2821834349, 2952996808, 3210313671,
   3336571891, 3584528711, 113926993, 338241895, 666307205, 773529912, 1294757372,
   1396182291, 1695183700, 1986661051, 2177026350, 2456956037, 2730485921, 2820302411,
   3259730800, 3345764771, 3516065817, 3600352804, 4094571909, 275423344, 430227734,
   506948616, 659060556, 883997877, 958139571, 1322822218, 1537002063, 1747873779,
   1955562222, 2024104815, 2227730452, 2361852424, 2428436474, 2756734187, 3204031479,
   3329325298]

def H0 : List Nat :=
  [1779033703, 3144134277, 1013904242, 2773480762, 1359893119, 2600822924, 528734635,
   1541459225]

/-- Extend the 16-word schedule to 64 words (48 steps of fuel). -/
def extendLoop : Nat → List Nat → List Nat
  | 0, w => w
  | k + 1, w =>
    let i := w.length
    let v := (ssig1 (w.getD (i - 2) 0) + w.getD (i - 7) 0 + ssig0 (w.getD (i - 15) 0) +
      w.getD (i - 16) 0) % M32
    extendLoop k (w ++ [v])

def round (state : List Nat) (kw : Nat × Nat) : List Nat :=
  match state with
  | [a, b, c, d, e, f, g, h] =>
    let t1 := (h + bsig1 e + ch e f g + kw.1 + kw.2) % M32
    let t2 := (bsig0 a + maj a b c) % M32
    [(t1 + t2) % M32, a, b, c, (d + t1) % M32, e, f, g]
  | s => s

def processChunk (h : List Nat) (chunk : List Nat) : List Nat :=
  let w16 := (List.range 16).map (fun i =>
    chunk.getD (4 * i) 0 * 16777216 + chunk.getD (4 * i + 1) 0 * 65536 +
      chunk.getD (4 * i + 2) 0 * 256 + chunk.getD (4 * i + 3) 0)
  let w := extendLoop 48 w16
  let s := (K.zip w).foldl round h
  (h.zip s).map (fun p => (p.1 + p.2) % M32)

def splitChunks (fuel : Nat) (l : List Nat) : List (List Nat) :=
  match fuel, l with
  | 0, _ => []
  | _, [] => []
  | f + 1, l => l.take 64 :: splitChunks f (l.drop 64)

def pad (msg : List Nat) : List Nat :=
  let L := msg.length
  let z := (119 - L % 64) % 64
  msg ++ [128] ++ List.replicate z 0 ++ (List.range 8).map (fun i => 8 * L / 256 ^ (7 - i) % 256)

def toHex8 (n : Nat) : String := hex4 (n / 65536) ++ hex4 (n % 65536)

/-- SHA-256 hex digest of a byte sequence. -/
def sha256hex (msg : List Nat) : String :=
  let padded := pad msg
  let hs := (splitChunks padded.length padded).foldl processChunk H0
  String.join (hs.map toHex8)

end SHA256

/-- UTF-8 bytes of a string, `str.encode("utf-8")` (the characters'
UTF-8 encodings in sequence, as `String.toUTF8` produces them). -/
def utf8Bytes (s : String) : List Nat :=
  (s.data.flatMap String.utf8EncodeChar).map (fun b => b.toNat)

/-- `sha256_of_manifest` of `util/hash.py`. -/
def sha256_of_manifest (j : Json) : String :=
  SHA256.sha256hex (utf8Bytes (canonical_json j))

/-! ## persistence/db.py — the `workload` table -/

/-- One row of the `workload` table. -/
structure WorkloadRow where
  cluster : String
  api_version : String
  kind : String
  «namespace» : String
  name : String
  resource_version : Option String
  uid : Option String
  first_seen : String
  last_seen : String
  deleted : Nat
  manifest_json : String
  manifest_hash : String
deriving Repr, DecidableEq

/-- The identity `WHERE` clause `cluster=? AND kind=? AND namespace=? AND name=?`. -/
def rowMatches (cluster kind «namespace» name : String) (r : WorkloadRow) : Bool :=
  r.cluster == cluster && r.kind == kind && r.namespace == «namespace» && r.name == name

/-- The `(kind, namespace, name)` triple `mark_deleted` selects. -/
def tripleOf (r : WorkloadRow) : String × String × String := (r.kind, r.namespace, r.name)

/-- `WorkloadDB.upsert_workload`.  The table is the list of rows; `SELECT
... fetchone()` is the first matching row, `INSERT` appends, `UPDATE`
rewrites every matching row (the unique identity index makes it at most
one).  The `sqlite3.IntegrityError` fallback branch only fires under a
concurrent insert racing this one and is unreachable in this sequential
model.  Timestamps are the already-serialized `now_s` strings. -/
def upsert_workload (db : List WorkloadRow)
    (cluster api_version kind «namespace» name : String)
    (resource_version uid : Option String) (manifest : JFields)
    (manifest_hash : String) (now_s : String) :
    List WorkloadRow × String × Bool :=
  let manifest_json := canonical_json (Json.obj manifest)
  match db.find? (rowMatches cluster kind «namespace» name) with
  | none =>
    (db ++ [{ cluster := cluster, api_version := api_version, kind := kind,
              «namespace» := «namespace», name := name,
              resource_version := resource_version, uid := uid,
              first_seen := now_s, last_seen := now_s, deleted := 0,
              manifest_json := manifest_json, manifest_hash := manifest_hash }],
     "inserted", true)
  | some row =>
    if row.manifest_hash == manifest_hash then
      (db.map (fun r => if rowMatches cluster kind «namespace» name r then
          { r with last_seen := now_s, deleted := 0 } else r),
       "unchanged", row.deleted == 1)
    else
      (db.map (fun r => if rowMatches cluster kind «namespace» name r then
          { r with api_version := api_version, resource_version := resource_version,
                   uid := uid, last_seen := now_s, manifest_json := manifest_json,
                   manifest_hash := manifest_hash, deleted := 0 } else r),
       "updated", true)

/-- `WorkloadDB.mark_deleted`.  `kinds_scope = none` models the `None`
default; Python's `if kinds_scope:` is also false for an empty list.
The fold mirrors the source's loop over the pre-computed `existing`
triples, deleting row-by-row and counting. -/
def mark_deleted (db : List WorkloadRow) (cluster : String)
    (alive_keys : List (String × String × String))
    (kinds_scope : Option (List String)) : List WorkloadRow × Nat :=
  let existing : List (String × String × String) :=
    match kinds_scope with
    | some ks =>
      if !ks.isEmpty then
        (db.filter (fun r => r.cluster == cluster && ks.contains r.kind)).map tripleOf
      else (db.filter (fun r => r.cluster == cluster)).map tripleOf
    | none => (db.filter (fun r => r.cluster == cluster)).map tripleOf
  existing.foldl
    (fun acc t =>
      if alive_keys.contains t then acc
      else (acc.1.filter (fun r => !(r.cluster == cluster && tripleOf r == t)), acc.2 + 1))
    (db, 0)

/-- `WorkloadDB.cleanup_obsolete_kinds`. -/
def cleanup_obsolete_kinds (db : List WorkloadRow) (cluster : String)
    (obsolete_kinds : List String) : List WorkloadRow × Nat :=
  if obsolete_kinds.isEmpty then (db, 0)
  else
    let removed := db.countP (fun r => r.cluster == cluster && obsolete_kinds.contains r.kind)
    (db.filter (fun r => !(r.cluster == cluster && obsolete_kinds.contains r.kind)), removed)

/-! ## persistence/db.py — the `node_capacity` table -/

/-- One row of the `node_capacity` table. -/
structure NodeRow where
  cluster : String
  node_name : String
  first_seen : String
  last_seen : String
  deleted : Nat
  cpu_capacity : Option String
  memory_capacity : Option String
  storage_capacity : Option String
  pods_capacity : Option String
  cpu_allocatable : Option String
  memory_allocatable : Option String
  storage_allocatable : Option String
  pods_allocatable : Option String
  node_role : String
  instance_type : Option String
  zone : Option String
  os_image : Option String
  kernel_version : Option String
  container_runtime : Option String
deriving Repr, DecidableEq

/-- `d.get(k, \x7b\x7d)` followed by use as a dict: absent key gives the
empty dict, a present non-dict raises (modelled `none`). -/
def getObjOr (k : String) (m : JFields) : Option JFields :=
  match getKey k m with
  | none => some .nil
  | some j => asObj j

/-- `d.get(k)` used as a nullable string column value; a present
non-string value is outside the modelled domain (`none` = failure). -/
def getOptStr (k : String) (m : JFields) : Option (Option String) :=
  match getKey k m with
  | none => some none
  | some (.str s) => some (some s)
  | some _ => none

/-- The extracted column values of `upsert_node_capacity`: the
capacity/allocatable quantities, node role, and label/nodeInfo strings.
(The extraction is grouped into small helpers purely to keep elaboration
tractable; the `.get` chains are the source's.) -/
structure NodeFields where
  cpuC : Option String
  memC : Option String
  stoC : Option String
  podC : Option String
  cpuA : Option String
  memA : Option String
  stoA : Option String
  podA : Option String
  node_role : String
  instT : Option String
  zone : Option String
  osI : Option String
  kerV : Option String
  conR : Option String
deriving Repr, DecidableEq

/-- `cpu` / `memory` / `ephemeral-storage` / `pods` of a capacity or
allocatable dict. -/
def quantFields (m : JFields) :
    Option (Option String × Option String × Option String × Option String) :=
  match getOptStr "cpu" m, getOptStr "memory" m, getOptStr "ephemeral-storage" m,
      getOptStr "pods" m with
  | some a, some b, some c, some d => some (a, b, c, d)
  | _, _, _, _ => none

/-- Role classification from well-known labels (`upsert_node_capacity`). -/
def nodeRoleOf (labels : JFields) : String :=
  if (getKey "node-role.kubernetes.io/master" labels).isSome ||
     (getKey "node-role.kubernetes.io/control-plane" labels).isSome then "master"
  else if (getKey "node-role.kubernetes.io/infra" labels).isSome then "infra"
  else "worker"

def labelFields (labels : JFields) : Option (Option String × Option String) :=
  match getOptStr "node.kubernetes.io/instance-type" labels,
      getOptStr "topology.kubernetes.io/zone" labels with
  | some a, some b => some (a, b)
  | _, _ => none

def infoFields (node_info : JFields) :
    Option (Option String × Option String × Option String) :=
  match getOptStr "osImage" node_info, getOptStr "kernelVersion" node_info,
      getOptStr "containerRuntimeVersion" node_info with
  | some a, some b, some c => some (a, b, c)
  | _, _, _ => none

/-- The `.get` extraction chain at the top of `upsert_node_capacity`. -/
def extractNodeFields (nd : JFields) : Option NodeFields :=
  match getObjOr "status" nd, getObjOr "metadata" nd with
  | some status, some metadata =>
    match getObjOr "capacity" status, getObjOr "allocatable" status,
        getObjOr "nodeInfo" status, getObjOr "labels" metadata with
    | some capacity, some allocatable, some node_info, some labels =>
      match quantFields capacity, quantFields allocatable, labelFields labels,
          infoFields node_info with
      | some (a1, a2, a3, a4), some (b1, b2, b3, b4), some (c1, c2), some (d1, d2, d3) =>
        some ⟨a1, a2, a3, a4, b1, b2, b3, b4, nodeRoleOf labels, c1, c2, d1, d2, d3⟩
      | _, _, _, _ => none
    | _, _, _, _ => none
  | _, _ => none

/-- The column rewrite of `upsert_node_capacity`'s `UPDATE` branch. -/
def updateNodeRow (f : NodeFields) (now_s : String) (r : NodeRow) : NodeRow :=
  { r with
    last_seen := now_s,
    cpu_capacity := f.cpuC, memory_capacity := f.memC,
    storage_capacity := f.stoC, pods_capacity := f.podC,
    cpu_allocatable := f.cpuA, memory_allocatable := f.memA,
    storage_allocatable := f.stoA, pods_allocatable := f.podA,
    node_role := f.node_role, instance_type := f.instT, zone := f.zone,
    os_image := f.osI, kernel_version := f.kerV, container_runtime := f.conR,
    deleted := 0 }

/-- `WorkloadDB.upsert_node_capacity`.  The lookup filters on
`deleted=0` like the source's `SELECT`; an insert against an existing
(deleted) identity would violate the unique index and raise, modelled
`none`. -/
def upsert_node_capacity (nodes : List NodeRow) (cluster node_name : String)
    (node_data : Json) (now_s : String) : Option (List NodeRow × String × Bool) :=
  match asObj node_data with
  | none => none
  | some nd =>
    match extractNodeFields nd with
    | none => none
    | some f =>
      match nodes.find? (fun r =>
          r.cluster == cluster && r.node_name == node_name && r.deleted == 0) with
      | none =>
        if (nodes.find? (fun r => r.cluster == cluster && r.node_name == node_name)).isSome
        then
          none    -- INSERT would violate the unique (cluster, node_name) index
        else
          let newRow : NodeRow :=
            { cluster := cluster, node_name := node_name,
              first_seen := now_s, last_seen := now_s, deleted := 0,
              cpu_capacity := f.cpuC, memory_capacity := f.memC, storage_capacity := f.stoC,
              pods_capacity := f.podC, cpu_allocatable := f.cpuA,
              memory_allocatable := f.memA, storage_allocatable := f.stoA,
              pods_allocatable := f.podA, node_role := f.node_role,
              instance_type := f.instT, zone := f.zone, os_image := f.osI,
              kernel_version := f.kerV, container_runtime := f.conR }
          some (nodes ++ [newRow], "inserted", true)
      | some _ =>
        some (nodes.map (fun r =>
          if r.cluster == cluster && r.node_name == node_name then updateNodeRow f now_s r
          else r), "updated", true)

/-- `WorkloadDB.mark_nodes_deleted`, the node analogue of `mark_deleted`. -/
def mark_nodes_deleted (nodes : List NodeRow) (cluster : String)
    (alive_nodes : List String) : List NodeRow × Nat :=
  let existing := (nodes.filter (fun r => r.cluster == cluster)).map (fun r => r.node_name)
  existing.foldl
    (fun acc nm =>
      if alive_nodes.contains nm then acc
      else (acc.1.filter (fun r => !(r.cluster == cluster && r.node_name == nm)), acc.2 + 1))
    (nodes, 0)

/-! ## kube/client.py — `list_resources` against a scripted backend -/

/-- One scripted backend response to a single `call_api` request:
a JSON page (its `items` and `metadata.continue`), an `ApiException`
with an optional HTTP status, or a generic exception. -/
inductive Resp where
  | page (items : List Json) (cont : Option String)
  | apiErr (status : Option Nat)
  | genErr

def transientStatuses : List Nat := [429, 500, 502, 503, 504]

def isTransient (status : Option Nat) : Bool :=
  match status with
  | some s => transientStatuses.contains s
  | none => false

/-- The nested pagination/retry loop of `list_resources`.  One scripted
response is consumed per request attempt.  Returns the items yielded, the
number of requests made, and the `time.sleep` durations, or `none` when
the script runs out before the generator finishes (no modelled response).
`attempt` resets to 0 at each new page, exactly as in the source; a
`4xx`-skip or retry exhaustion ends the stream cleanly with whatever was
already yielded. -/
def listGo (maxRetries : Nat) (backoffBase : ℚ) :
    List Resp → Nat → List Json → Nat → List ℚ → Option (List Json × Nat × List ℚ)
  | [], _, _, _, _ => none
  | r :: rest, attempt, acc, reqs, sleeps =>
    match r with
    | .page items cont =>
      let acc2 := acc ++ items
      match cont with
      | some c =>
        if c ≠ "" then listGo maxRetries backoffBase rest 0 acc2 (reqs + 1) sleeps
        else some (acc2, reqs + 1, sleeps)       -- `if not cont: break`
      | none => some (acc2, reqs + 1, sleeps)
    | .apiErr status =>
      if status == some 403 || status == some 404 then some (acc, reqs + 1, sleeps)
      else if isTransient status && attempt < maxRetries then
        listGo maxRetries backoffBase rest (attempt + 1) acc (reqs + 1)
          (sleeps ++ [backoffBase * 2 ^ attempt])
      else some (acc, reqs + 1, sleeps)          -- log error and stop yielding
    | .genErr =>
      if attempt < maxRetries then
        listGo maxRetries backoffBase rest (attempt + 1) acc (reqs + 1)
          (sleeps ++ [backoffBase * 2 ^ attempt])
      else some (acc, reqs + 1, sleeps)

/-- `list_resources` with its default `max_retries=4`, `backoff_base=0.5`. -/
def list_resources (script : List Resp) : Option (List Json × Nat × List ℚ) :=
  listGo 4 (1 / 2 : ℚ) script 0 [] 0 []

/-! ## sync/engine.py and the orchestration slice of run.py -/

/-- The two tables of one cluster database. -/
structure DBState where
  workload : List WorkloadRow
  nodes : List NodeRow
deriving Repr, DecidableEq

/-- `meta.get(k, dflt)` used as a string; a present non-string value is
outside the modelled domain. -/
def getStrOr (dflt k : String) (m : JFields) : Option String :=
  match getKey k m with
  | none => some dflt
  | some (.str s) => some s
  | some _ => none

/-- `meta[k]` used as a string: `KeyError` on absence (modelled `none`). -/
def getStr (k : String) (m : JFields) : Option String :=
  match getKey k m with
  | some (.str s) => some s
  | _ => none

/-- The item loop of `SyncEngine.sync_kind`: per item extract namespace
(`''` default) and name, special-case the Node kind into the capacity
table, then normalize + hash + upsert and append the identity to the
alive keys.  State is threaded; `none` models an uncaught exception
(malformed item). -/
def syncItems (cluster api_version kind now_s : String) :
    List Json → DBState → List (String × String × String) → List String →
    Option (DBState × List (String × String × String) × List String)
  | [], st, ak, an => some (st, ak, an)
  | item :: rest, st, ak, an =>
    match asObj item with
    | none => none
    | some io =>
      match getObjOr "metadata" io with
      | none => none
      | some meta =>
        match getStrOr "" "namespace" meta, getStr "name" meta with
        | some ns, some name =>
          match getOptStr "resourceVersion" meta, getOptStr "uid" meta with
          | some rv, some uid =>
            let nodeStep : Option (DBState × List String) :=
              if kind == "Node" then
                match upsert_node_capacity st.nodes cluster name item now_s with
                | none => none
                | some (nodes2, _, _) => some ({ st with nodes := nodes2 }, an ++ [name])
              else some (st, an)
            match nodeStep with
            | none => none
            | some (st1, an1) =>
              match normalize_manifest io with
              | none => none
              | some norm =>
                let h := sha256_of_manifest (Json.obj norm)
                let r := upsert_workload st1.workload cluster api_version kind ns name
                  rv uid norm h now_s
                syncItems cluster api_version kind now_s rest
                  { st1 with workload := r.1 } (ak ++ [(kind, ns, name)]) an1
          | _, _ => none
        | _, _ => none

/-- `SyncEngine.sync_kind`: run the item loop, then — only for a Node
sync that accumulated at least one alive node (`if kind == 'Node' and
alive_nodes:`) — hard-delete unobserved node rows. -/
def sync_kind (st : DBState) (cluster api_version kind : String) (items : List Json)
    (now_s : String) : Option (DBState × List (String × String × String)) :=
  match syncItems cluster api_version kind now_s items st [] [] with
  | none => none
  | some (st1, alive_keys, alive_nodes) =>
    if kind == "Node" && !alive_nodes.isEmpty then
      let d := mark_nodes_deleted st1.nodes cluster alive_nodes
      some ({ st1 with nodes := d.1 }, alive_keys)
    else some (st1, alive_keys)

/-- `SyncEngine.finalize`: pass-through to `mark_deleted`. -/
def finalize (st : DBState) (cluster : String)
    (alive_keys : List (String × String × String)) (kinds_scope : Option (List String)) :
    DBState × Nat :=
  let d := mark_deleted st.workload cluster alive_keys kinds_scope
  ({ st with workload := d.1 }, d.2)

/-- `item.get('metadata', \x7b\x7d).get('namespace', 'default')` of
`_fetch_kind_items` (run.py): the namespace value an item is screened
against in a cluster-wide listing of a namespaced kind. -/
def exclNamespaceOf (item : Json) : Option Json :=
  match asObj item with
  | none => none
  | some io =>
    match getObjOr "metadata" io with
    | none => none
    | some meta => some ((getKey "namespace" meta).getD (.str "default"))

/-- The item filter of `_fetch_kind_items` in cluster-wide mode:
namespaced kinds drop items whose (defaulted) namespace satisfies the
exclusion predicate; `none` models an exception (caught by the source
and turned into a task error). -/
def fetch_filter (excl : String → Bool) (namespaced : Bool) :
    List Json → Option (List Json)
  | [] => some []
  | item :: rest =>
    if namespaced then
      match exclNamespaceOf item with
      | some (.str ns) =>
        if excl ns then fetch_filter excl namespaced rest
        else
          match fetch_filter excl namespaced rest with
          | none => none
          | some l => some (item :: l)
      | _ => none    -- non-string namespace value: outside the predicate's domain
    else
      match fetch_filter excl namespaced rest with
      | none => none
      | some l => some (item :: l)

/-- `_fetch_kind_items` in cluster-wide mode against a scripted backend:
list, then filter.  `none` is the error result (`(kind, [], str(e))`)
the orchestrator records for the task. -/
def fetch_kind_items (excl : String → Bool) (namespaced : Bool) (script : List Resp) :
    Option (List Json) :=
  match list_resources script with
  | none => none
  | some (items, _, _) => fetch_filter excl namespaced items

/-- One fetch-and-sync task of the `sync` command (cluster-wide mode):
a kind with its resolved API coordinates and a scripted backend.
`script = none` models a fetch that raised before/outside the listing
loop. -/
structure KindTask where
  kind : String
  api_version : String
  namespaced : Bool
  script : Option (List Resp)

/-- The fan-out loop of the `sync` command: per task fetch (errors make
the kind skipped), `sync_kind` on a fresh connection to the same store,
and accumulation of alive keys and `successful_kinds` (the
worker-completion order is sequentialized here; the aggregation is
order-insensitive for the properties proved below).  A `sync_kind`
exception propagates and aborts the run (`none`).  `fetchResult` is one
task's fetch outcome: `none` is the error result the orchestrator
records (fetch raised, or the listing loop's script ran out). -/
def fetchResult (excl : String → Bool) (t : KindTask) : Option (List Json) :=
  match t.script with
  | none => none
  | some s => fetch_kind_items excl t.namespaced s

def runTasks (cluster now_s : String) (excl : String → Bool) :
    List KindTask → DBState → List (String × String × String) → List String →
    Option (DBState × List (String × String × String) × List String)
  | [], st, alive, succ => some (st, alive, succ)
  | t :: rest, st, alive, succ =>
    match fetchResult excl t with
    | none => runTasks cluster now_s excl rest st alive succ
    | some items =>
      match sync_kind st cluster t.api_version t.kind items now_s with
      | none => none
      | some (st2, ak) =>
        runTasks cluster now_s excl rest st2 (alive ++ ak)
          (if succ.contains t.kind then succ else succ ++ [t.kind])

/-- The sync pipeline through `engine.finalize(all_alive,
kinds_scope=successful_kinds)` (run.py line 226); the obsolete-kind
cleanup that follows is `cleanup_obsolete_kinds`, modelled separately. -/
def sync_run (st : DBState) (cluster : String) (tasks : List KindTask)
    (excl : String → Bool) (now_s : String) : Option (DBState × List String × Nat) :=
  match runTasks cluster now_s excl tasks st [] [] with
  | none => none
  | some (st1, all_alive, successful_kinds) =>
    let f := finalize st1 cluster all_alive (some successful_kinds)
    some (f.1, successful_kinds, f.2)

/-! ## Lemmas on the dict operations -/

/-- Structural induction for field sequences alone (the mutual recursor
also asks for `Json`/`JArr` motives, which these lemmas never need). -/
@[induction_eliminator]
theorem JFields.inductionOn {motive : JFields → Prop} (l : JFields)
    (nil : motive .nil)
    (cons : ∀ (k : String) (v : Json) (t : JFields), motive t → motive (.cons k v t)) :
    motive l :=
  match l with
  | .nil => nil
  | .cons k v t => cons k v t (JFields.inductionOn t nil cons)

theorem getKey_eraseKey_self (k : String) (l : JFields) :
    getKey k (eraseKey k l) = none := by
  induction l with
  | nil => rfl
  | cons k' v t ih =>
    by_cases h : k' = k
    · simpa [eraseKey, h] using ih
    · simpa [eraseKey, getKey, h] using ih

theorem getKey_eraseKey_ne (k k' : String) (h : k ≠ k') (l : JFields) :
    getKey k (eraseKey k' l) = getKey k l := by
  have h' : k' ≠ k := fun hh => h hh.symm
  induction l with
  | nil => rfl
  | cons a v t ih =>
    by_cases ha : a = k'
    · have hak : a ≠ k := by rw [ha]; exact h'
      simpa [eraseKey, getKey, ha, hak, h'] using ih
    · by_cases hk : a = k
      · simp [eraseKey, getKey, ha, hk, h, h']
      · simpa [eraseKey, getKey, ha, hk] using ih

theorem eraseKey_of_getKey_none (k : String) (l : JFields)
    (h : getKey k l = none) : eraseKey k l = l := by
  induction l with
  | nil => rfl
  | cons a v t ih =>
    by_cases ha : a = k
    · simp [getKey, ha] at h
    · simp only [getKey, ha, if_neg, if_false] at h
      simp [eraseKey, ha, ih h]

theorem getKey_setKey_self (k : String) (v : Json) (l : JFields) :
    getKey k (setKey k v l) = some v := by
  induction l with
  | nil => simp [setKey, getKey]
  | cons a w t ih =>
    by_cases ha : a = k
    · simp [setKey, getKey, ha]
    · simpa [setKey, getKey, ha] using ih

theorem getKey_setKey_ne (k k' : String) (v : Json) (h : k ≠ k') (l : JFields) :
    getKey k (setKey k' v l) = getKey k l := by
  have h' : k' ≠ k := fun hh => h hh.symm
  induction l with
  | nil => simp [setKey, getKey, h']
  | cons a w t ih =>
    by_cases ha : a = k'
    · have hak : a ≠ k := by rw [ha]; exact h'
      simp [setKey, getKey, ha, hak, h']
    · by_cases hk : a = k
      · simp [setKey, getKey, ha, hk, h, h']
      · simpa [setKey, getKey, ha, hk] using ih

theorem setKey_idem (k : String) (v : Json) (l : JFields) :
    setKey k v (setKey k v l) = setKey k v l := by
  induction l with
  | nil => simp [setKey]
  | cons a w t ih =>
    by_cases ha : a = k
    · simp [setKey, ha]
    · simp [setKey, ha, ih]

theorem eraseFold_cons (g : String) (gs : List String) (m : JFields) :
    eraseFold (g :: gs) m = eraseFold gs (eraseKey g m) := rfl

theorem getKey_eraseKey_none (f g : String) (m : JFields)
    (h : getKey f m = none) : getKey f (eraseKey g m) = none := by
  by_cases hfg : f = g
  · rw [hfg]; exact getKey_eraseKey_self g m
  · rw [getKey_eraseKey_ne f g hfg m]; exact h

theorem getKey_eraseFold_none (fs : List String) (f : String) (m : JFields)
    (h : getKey f m = none) : getKey f (eraseFold fs m) = none := by
  induction fs generalizing m with
  | nil => exact h
  | cons g gs ih => exact ih _ (getKey_eraseKey_none f g m h)

theorem getKey_eraseFold_mem (fs : List String) (f : String) (m : JFields)
    (h : f ∈ fs) : getKey f (eraseFold fs m) = none := by
  induction fs generalizing m with
  | nil => cases h
  | cons g gs ih =>
    rcases List.mem_cons.mp h with h1 | h2
    · rw [eraseFold_cons, h1]
      exact getKey_eraseFold_none gs g _ (getKey_eraseKey_self g m)
    · exact ih _ h2

theorem eraseFold_of_all_none (fs : List String) (m : JFields)
    (h : ∀ f ∈ fs, getKey f m = none) : eraseFold fs m = m := by
  induction fs with
  | nil => rfl
  | cons g gs ih =>
    rw [eraseFold_cons, eraseKey_of_getKey_none g m (h g (List.mem_cons_self g gs))]
    exact ih (fun f hf => h f (List.mem_cons_of_mem g hf))

theorem filterAnn_idem (ann : JFields) : filterAnn (filterAnn ann) = filterAnn ann := by
  induction ann with
  | nil => rfl
  | cons k v t ih =>
    by_cases hp : (!(SYSTEM_ANNOTATION_PREFIXES.any (fun pre => startsWith pre k))) = true
    · simp only [filterAnn, hp, if_true]
      rw [ih]
    · simp only [filterAnn, hp, if_false]
      exact ih

/-! ## Idempotence of the normalizer (claim C7 support) -/

theorem asObj_eq_some (j : Json) (l : JFields) (h : asObj j = some l) : j = .obj l := by
  cases j <;> simp_all [asObj]

theorem strip_fields_ne_ann : ∀ f ∈ STRIP_METADATA_FIELDS, f ≠ "annotations" := by decide

theorem normalizeMeta_of_ann_none (m : JFields)
    (h : getKey "annotations" (eraseFold STRIP_METADATA_FIELDS m) = none) :
    normalizeMeta m = some (eraseFold STRIP_METADATA_FIELDS m) := by
  simp only [normalizeMeta]
  rw [h]
  simp [filterAnn, h, JFields.isEmpty]

theorem normalizeMeta_of_falsy (m : JFields) (j : Json)
    (h : getKey "annotations" (eraseFold STRIP_METADATA_FIELDS m) = some j)
    (hf : isFalsy j = true) :
    normalizeMeta m = some (eraseKey "annotations" (eraseFold STRIP_METADATA_FIELDS m)) := by
  simp only [normalizeMeta]
  rw [h]
  simp [hf, filterAnn, h, JFields.isEmpty]

theorem normalizeMeta_of_nonobj (m : JFields) (j : Json)
    (h : getKey "annotations" (eraseFold STRIP_METADATA_FIELDS m) = some j)
    (hf : isFalsy j = false) (hno : asObj j = none) :
    normalizeMeta m = none := by
  simp only [normalizeMeta]
  rw [h]
  simp [hf, hno]

theorem normalizeMeta_of_obj_nil (m : JFields) (ann : JFields)
    (h : getKey "annotations" (eraseFold STRIP_METADATA_FIELDS m) = some (.obj ann))
    (hfa : filterAnn ann = .nil) :
    normalizeMeta m = some (eraseKey "annotations" (eraseFold STRIP_METADATA_FIELDS m)) := by
  simp only [normalizeMeta]
  rw [h]
  cases ann with
  | nil => simp [isFalsy, JFields.isEmpty, filterAnn, h]
  | cons a v t =>
    simp [isFalsy, JFields.isEmpty, asObj, hfa, h]

theorem normalizeMeta_of_obj_ne_nil (m : JFields) (ann : JFields)
    (h : getKey "annotations" (eraseFold STRIP_METADATA_FIELDS m) = some (.obj ann))
    (hfa : filterAnn ann ≠ .nil) :
    normalizeMeta m =
      some (setKey "annotations" (Json.obj (filterAnn ann))
        (eraseFold STRIP_METADATA_FIELDS m)) := by
  have hann : ann ≠ .nil := by
    intro hnil
    exact hfa (by simp [hnil, filterAnn])
  simp only [normalizeMeta]
  rw [h]
  cases ann with
  | nil => exact absurd rfl hann
  | cons a v t =>
    cases hc : filterAnn (JFields.cons a v t) with
    | nil => exact absurd hc hfa
    | cons x y z => simp [isFalsy, JFields.isEmpty, asObj, hc]

theorem normalizeMeta_fixed_of_ann_none (x : JFields)
    (hfields : ∀ f ∈ STRIP_METADATA_FIELDS, getKey f x = none)
    (hann : getKey "annotations" x = none) : normalizeMeta x = some x := by
  have hE : eraseFold STRIP_METADATA_FIELDS x = x := eraseFold_of_all_none _ _ hfields
  have hg2 : getKey "annotations" (eraseFold STRIP_METADATA_FIELDS x) = none := by
    rw [hE]; exact hann
  rw [normalizeMeta_of_ann_none x hg2, hE]

theorem normalizeMeta_fixed_of_ann_obj (x ann : JFields)
    (hfields : ∀ f ∈ STRIP_METADATA_FIELDS, getKey f x = none)
    (hann : getKey "annotations" x = some (.obj ann))
    (hfa : filterAnn ann = ann) (hne : ann ≠ .nil)
    (hset : setKey "annotations" (Json.obj ann) x = x) : normalizeMeta x = some x := by
  have hE : eraseFold STRIP_METADATA_FIELDS x = x := eraseFold_of_all_none _ _ hfields
  have hg2 : getKey "annotations" (eraseFold STRIP_METADATA_FIELDS x) = some (.obj ann) := by
    rw [hE]; exact hann
  have hfane : filterAnn ann ≠ .nil := by rw [hfa]; exact hne
  rw [normalizeMeta_of_obj_ne_nil x ann hg2 hfane, hfa, hE, hset]

theorem normalizeMeta_idem (m m2 : JFields) (h : normalizeMeta m = some m2) :
    normalizeMeta m2 = some m2 := by
  have hfieldsM : ∀ f ∈ STRIP_METADATA_FIELDS,
      getKey f (eraseFold STRIP_METADATA_FIELDS m) = none :=
    fun f hf => getKey_eraseFold_mem _ f m hf
  cases hg : getKey "annotations" (eraseFold STRIP_METADATA_FIELDS m) with
  | none =>
    have e1 := normalizeMeta_of_ann_none m hg
    rw [h] at e1
    have hm2 : m2 = eraseFold STRIP_METADATA_FIELDS m := (Option.some.inj e1.symm).symm
    subst hm2
    exact normalizeMeta_fixed_of_ann_none _ hfieldsM hg
  | some j =>
    by_cases hf : isFalsy j = true
    · have e1 := normalizeMeta_of_falsy m j hg hf
      rw [h] at e1
      have hm2 : m2 = eraseKey "annotations" (eraseFold STRIP_METADATA_FIELDS m) :=
        (Option.some.inj e1.symm).symm
      subst hm2
      refine normalizeMeta_fixed_of_ann_none _ ?_ ?_
      · exact fun f hfm => getKey_eraseKey_none f _ _ (hfieldsM f hfm)
      · exact getKey_eraseKey_self _ _
    · have hf2 : isFalsy j = false := Bool.not_eq_true _ ▸ Bool.of_not_eq_true hf
      cases hno : asObj j with
      | none =>
        have e1 := normalizeMeta_of_nonobj m j hg hf2 hno
        rw [h] at e1
        exact absurd e1 (by simp)
      | some ann =>
        have hj : j = .obj ann := asObj_eq_some j ann hno
        subst hj
        by_cases hfa : filterAnn ann = .nil
        · have e1 := normalizeMeta_of_obj_nil m ann hg hfa
          rw [h] at e1
          have hm2 : m2 = eraseKey "annotations" (eraseFold STRIP_METADATA_FIELDS m) :=
            (Option.some.inj e1.symm).symm
          subst hm2
          refine normalizeMeta_fixed_of_ann_none _ ?_ ?_
          · exact fun f hfm => getKey_eraseKey_none f _ _ (hfieldsM f hfm)
          · exact getKey_eraseKey_self _ _
        · have e1 := normalizeMeta_of_obj_ne_nil m ann hg hfa
          rw [h] at e1
          have hm2 : m2 = setKey "annotations" (Json.obj (filterAnn ann))
              (eraseFold STRIP_METADATA_FIELDS m) := (Option.some.inj e1.symm).symm
          refine normalizeMeta_fixed_of_ann_obj m2 (filterAnn ann) ?_ ?_ ?_ hfa ?_
          · intro f hfm
            rw [hm2, getKey_setKey_ne f "annotations" _ (strip_fields_ne_ann f hfm)]
            exact hfieldsM f hfm
          · rw [hm2]
            exact getKey_setKey_self _ _ _
          · exact filterAnn_idem ann
          · rw [hm2]
            exact setKey_idem _ _ _

theorem nm_of_meta_none (ps : JFields)
    (h : getKey "metadata" (eraseFold REMOVE_TOP_LEVEL ps) = none) :
    normalize_manifest ps = some (eraseFold REMOVE_TOP_LEVEL ps) := by
  simp only [normalize_manifest]
  rw [h]

theorem nm_of_meta_nonobj (ps : JFields) (mj : Json)
    (h : getKey "metadata" (eraseFold REMOVE_TOP_LEVEL ps) = some mj)
    (hno : asObj mj = none) : normalize_manifest ps = none := by
  simp only [normalize_manifest]
  rw [h]
  simp [hno]

theorem nm_of_meta_obj_bad (ps : JFields) (meta : JFields)
    (h : getKey "metadata" (eraseFold REMOVE_TOP_LEVEL ps) = some (.obj meta))
    (hb : normalizeMeta meta = none) : normalize_manifest ps = none := by
  simp only [normalize_manifest]
  rw [h]
  simp [asObj, hb]

theorem nm_of_meta_obj (ps : JFields) (meta meta2 : JFields)
    (h : getKey "metadata" (eraseFold REMOVE_TOP_LEVEL ps) = some (.obj meta))
    (hn : normalizeMeta meta = some meta2) :
    normalize_manifest ps =
      some (setKey "metadata" (Json.obj meta2) (eraseFold REMOVE_TOP_LEVEL ps)) := by
  simp only [normalize_manifest]
  rw [h]
  simp [asObj, hn]

/-- C7: `normalize_manifest` is idempotent: whenever it succeeds on a raw
object `ps` with result `qs`, applying it again to `qs` returns `qs`
unchanged — stripping `status`, the volatile metadata fields, and the
(possibly emptied-and-removed) `annotations` key are all stable under a
second application. -/
theorem C7_normalize_manifest_idempotent (ps qs : JFields)
    (h : normalize_manifest ps = some qs) : normalize_manifest qs = some qs := by
  have hstatus : getKey "status" (eraseFold REMOVE_TOP_LEVEL ps) = none :=
    getKey_eraseFold_mem _ _ _ (by decide)
  cases hm : getKey "metadata" (eraseFold REMOVE_TOP_LEVEL ps) with
  | none =>
    have e1 := nm_of_meta_none ps hm
    rw [h] at e1
    have hqs : qs = eraseFold REMOVE_TOP_LEVEL ps := (Option.some.inj e1.symm).symm
    subst hqs
    have hE : eraseFold REMOVE_TOP_LEVEL (eraseFold REMOVE_TOP_LEVEL ps) =
        eraseFold REMOVE_TOP_LEVEL ps := by
      refine eraseFold_of_all_none _ _ ?_
      intro f hf
      have : f = "status" := by
        simpa [REMOVE_TOP_LEVEL] using hf
      rw [this]
      exact hstatus
    rw [nm_of_meta_none _ (by rw [hE]; exact hm), hE]
  | some mj =>
    cases hno : asObj mj with
    | none =>
      have e1 := nm_of_meta_nonobj ps mj hm hno
      rw [h] at e1
      exact absurd e1 (by simp)
    | some meta =>
      have hmj : mj = .obj meta := asObj_eq_some mj meta hno
      subst hmj
      cases hnm : normalizeMeta meta with
      | none =>
        have e1 := nm_of_meta_obj_bad ps meta hm hnm
        rw [h] at e1
        exact absurd e1 (by simp)
      | some meta2 =>
        have e1 := nm_of_meta_obj ps meta meta2 hm hnm
        rw [h] at e1
        have hqs : qs = setKey "metadata" (Json.obj meta2) (eraseFold REMOVE_TOP_LEVEL ps) :=
          (Option.some.inj e1.symm).symm
        have hstatus2 : getKey "status" qs = none := by
          rw [hqs, getKey_setKey_ne _ _ _ (by decide)]
          exact hstatus
        have hE : eraseFold REMOVE_TOP_LEVEL qs = qs := by
          refine eraseFold_of_all_none _ _ ?_
          intro f hf
          have : f = "status" := by
            simpa [REMOVE_TOP_LEVEL] using hf
          rw [this]
          exact hstatus2
        have hm2 : getKey "metadata" (eraseFold REMOVE_TOP_LEVEL qs) =
            some (Json.obj meta2) := by
          rw [hE, hqs]
          exact getKey_setKey_self _ _ _
        rw [nm_of_meta_obj qs meta2 meta2 hm2 (normalizeMeta_idem meta meta2 hnm), hE, hqs,
          setKey_idem]

def normEx : JFields :=
  jfOf [("status", .num 1),
    ("metadata", .obj (jfOf [("name", .str "demo"), ("uid", .str "u1"),
      ("annotations", .obj (jfOf [("kubectl.kubernetes.io/last-applied", .str "v"),
        ("user.annot/key", .str "y")]))])),
    ("spec", .num 2)]

def normExOut : JFields :=
  jfOf [("metadata", .obj (jfOf [("name", .str "demo"),
      ("annotations", .obj (jfOf [("user.annot/key", .str "y")]))])),
    ("spec", .num 2)]

/-- Witness for C7 at a concrete raw object. -/
theorem C7_witness :
    normalize_manifest normEx = some normExOut ∧
      normalize_manifest normExOut = some normExOut :=
  ⟨rfl, C7_normalize_manifest_idempotent normEx normExOut rfl⟩

/-! ## mark_deleted characterization (claims C1/C2 support) -/

/-- One delete step of `mark_deleted`'s loop. -/
def delStep (cluster : String) (alive_keys : List (String × String × String))
    (acc : List WorkloadRow × Nat) (t : String × String × String) :
    List WorkloadRow × Nat :=
  if alive_keys.contains t then acc
  else (acc.1.filter (fun r => !(r.cluster == cluster && tripleOf r == t)), acc.2 + 1)

theorem mark_deleted_eq_foldl (db : List WorkloadRow) (cluster : String)
    (alive_keys : List (String × String × String)) (kinds_scope : Option (List String)) :
    mark_deleted db cluster alive_keys kinds_scope =
      (match kinds_scope with
        | some ks =>
          if !ks.isEmpty then
            ((db.filter (fun r => r.cluster == cluster && ks.contains r.kind)).map
              tripleOf).foldl (delStep cluster alive_keys) (db, 0)
          else ((db.filter (fun r => r.cluster == cluster)).map tripleOf).foldl
            (delStep cluster alive_keys) (db, 0)
        | none => ((db.filter (fun r => r.cluster == cluster)).map tripleOf).foldl
            (delStep cluster alive_keys) (db, 0)) := by
  cases kinds_scope with
  | none => rfl
  | some ks => cases ks <;> rfl

theorem delStep_alive (cluster : String) (alive_keys : List (String × String × String))
    (db0 : List WorkloadRow) (n : Nat) (t : String × String × String)
    (h : alive_keys.contains t = true) :
    delStep cluster alive_keys (db0, n) t = (db0, n) := by
  unfold delStep
  rw [if_pos h]

theorem delStep_dead (cluster : String) (alive_keys : List (String × String × String))
    (db0 : List WorkloadRow) (n : Nat) (t : String × String × String)
    (h : alive_keys.contains t = false) :
    delStep cluster alive_keys (db0, n) t =
      (db0.filter (fun r => !(r.cluster == cluster && tripleOf r == t)), n + 1) := by
  unfold delStep
  rw [if_neg (by rw [h]; exact Bool.false_ne_true)]

theorem foldl_delStep_char (cluster : String)
    (alive_keys : List (String × String × String))
    (ts : List (String × String × String)) :
    ∀ (db0 : List WorkloadRow) (n : Nat),
      ts.foldl (delStep cluster alive_keys) (db0, n) =
        (db0.filter (fun r => !(r.cluster == cluster && ts.contains (tripleOf r) &&
          !alive_keys.contains (tripleOf r))),
         n + ts.countP (fun t => !alive_keys.contains t)) := by
  induction ts with
  | nil =>
    intro db0 n
    simp
  | cons t ts ih =>
    intro db0 n
    cases ha : alive_keys.contains t with
    | true =>
      have ham : t ∈ alive_keys := by simpa using ha
      rw [List.foldl_cons, delStep_alive cluster alive_keys db0 n t ha, ih db0 n]
      simp only [Prod.mk.injEq]
      constructor
      · apply List.filter_congr
        intro r _
        by_cases he : tripleOf r = t
        · rw [he]
          simp [List.contains_cons, ham]
        · simp [List.contains_cons, he]
      · simp [List.countP_cons, ham]
    | false =>
      have ham : t ∉ alive_keys := by simpa using ha
      rw [List.foldl_cons, delStep_dead cluster alive_keys db0 n t ha, ih _ _,
        List.filter_filter]
      simp only [Prod.mk.injEq]
      constructor
      · apply List.filter_congr
        intro r _
        by_cases he : tripleOf r = t
        · rw [he]
          simp [List.contains_cons, ham]
          tauto
        · simp [List.contains_cons, he]
      · simp [List.countP_cons, ham]
        omega

/-- Characterization of the scoped `mark_deleted`: it deletes exactly the
cluster's rows whose kind is in the (non-empty) scope and whose identity
triple is not alive, and returns how many rows that was. -/
theorem mark_deleted_scoped_char (db : List WorkloadRow) (cluster : String)
    (alive_keys : List (String × String × String)) (ks : List String) (h : ks ≠ []) :
    mark_deleted db cluster alive_keys (some ks) =
      (db.filter (fun r => !(r.cluster == cluster && ks.contains r.kind &&
        !alive_keys.contains (tripleOf r))),
       db.countP (fun r => r.cluster == cluster && ks.contains r.kind &&
        !alive_keys.contains (tripleOf r))) := by
  have hemp : ks.isEmpty = false := by
    cases ks with
    | nil => exact absurd rfl h
    | cons a t => rfl
  rw [mark_deleted_eq_foldl]
  simp only [hemp, Bool.not_false, if_true]
  rw [foldl_delStep_char]
  simp only [Prod.mk.injEq]
  constructor
  · apply List.filter_congr
    intro r hr
    cases hA : (r.cluster == cluster) with
    | false => simp [hA]
    | true =>
      have hiff : ((db.filter (fun r => r.cluster == cluster && ks.contains r.kind)).map
          tripleOf).contains (tripleOf r) = ks.contains r.kind := by
        cases hK : ks.contains r.kind with
        | true =>
          have hKm : r.kind ∈ ks := by simpa using hK
          have hmem : tripleOf r ∈ (db.filter
              (fun r => r.cluster == cluster && ks.contains r.kind)).map tripleOf :=
            List.mem_map_of_mem tripleOf (List.mem_filter.mpr ⟨hr, by simp [hA, hKm]⟩)
          simpa using hmem
        | false =>
          cases hc : ((db.filter (fun r => r.cluster == cluster && ks.contains r.kind)).map
              tripleOf).contains (tripleOf r) with
          | false => rfl
          | true =>
            have hmem : tripleOf r ∈ (db.filter
                (fun r => r.cluster == cluster && ks.contains r.kind)).map tripleOf := by
              simpa using hc
            obtain ⟨r', hr', heq⟩ := List.mem_map.mp hmem
            have hflt := (List.mem_filter.mp hr').2
            have hkind : r'.kind = r.kind := congrArg Prod.fst heq
            have hK' : ks.contains r'.kind = true := by
              cases hx : ks.contains r'.kind with
              | true => rfl
              | false => rw [hx] at hflt; simp at hflt
            rw [hkind] at hK'
            rw [hK'] at hK
            cases hK
      rw [hiff]
  · rw [List.countP_map, List.countP_filter, Nat.zero_add]
    apply List.countP_congr
    intro r _
    simp only [Function.comp_apply]
    cases r.cluster == cluster <;> cases ks.contains r.kind <;>
      cases alive_keys.contains (tripleOf r) <;> simp

/-- C1: for every cluster, alive-key set and non-empty kinds scope,
`mark_deleted` (and `SyncEngine.finalize`, which passes straight through
to it) hard-deletes exactly the existing workload rows whose kind is in
the scope and whose `(kind, namespace, name)` identity is not alive,
returns their count as `removed_count`, and leaves every row whose kind
is outside the scope (or whose cluster differs) untouched — the
surviving table is exactly the original filtered on the complement. -/
theorem C1_mark_deleted_scope (db : List WorkloadRow) (cluster : String)
    (alive_keys : List (String × String × String)) (ks : List String) (st : DBState)
    (h : ks ≠ []) :
    mark_deleted db cluster alive_keys (some ks) =
      (db.filter (fun r => !(r.cluster == cluster && ks.contains r.kind &&
        !alive_keys.contains (tripleOf r))),
       db.countP (fun r => r.cluster == cluster && ks.contains r.kind &&
        !alive_keys.contains (tripleOf r))) ∧
    finalize st cluster alive_keys (some ks) =
      ({ st with workload := st.workload.filter (fun r => !(r.cluster == cluster &&
          ks.contains r.kind && !alive_keys.contains (tripleOf r))) },
       st.workload.countP (fun r => r.cluster == cluster && ks.contains r.kind &&
        !alive_keys.contains (tripleOf r))) := by
  refine ⟨mark_deleted_scoped_char db cluster alive_keys ks h, ?_⟩
  unfold finalize
  rw [mark_deleted_scoped_char st.workload cluster alive_keys ks h]

/-- A workload row with fixed filler columns, for concrete examples. -/
def mkRow (cluster kind ns name : String) : WorkloadRow :=
  { cluster := cluster, api_version := "v1", kind := kind, «namespace» := ns,
    name := name, resource_version := none, uid := none, first_seen := "t0",
    last_seen := "t0", deleted := 0, manifest_json := "mj", manifest_hash := "h1" }

/-- The spec's tombstone example: identities A, B, C of kind K, alive
\x7bA, C\x7d, scope \x7bK\x7d — exactly B is removed, `removed_count = 1`, and the
kind-L row is untouched. -/
theorem C1_witness :
    (["K"] ≠ ([] : List String)) ∧
      mark_deleted [mkRow "c1" "K" "d" "A", mkRow "c1" "K" "d" "B", mkRow "c1" "K" "d" "C",
          mkRow "c1" "L" "d" "X"] "c1" [("K", "d", "A"), ("K", "d", "C")] (some ["K"]) =
        ([mkRow "c1" "K" "d" "A", mkRow "c1" "K" "d" "B", mkRow "c1" "K" "d" "C",
            mkRow "c1" "L" "d" "X"].filter (fun r => !(r.cluster == "c1" &&
              ["K"].contains r.kind &&
              !([("K", "d", "A"), ("K", "d", "C")] :
                List (String × String × String)).contains (tripleOf r))),
         [mkRow "c1" "K" "d" "A", mkRow "c1" "K" "d" "B", mkRow "c1" "K" "d" "C",
            mkRow "c1" "L" "d" "X"].countP (fun r => r.cluster == "c1" &&
              ["K"].contains r.kind &&
              !([("K", "d", "A"), ("K", "d", "C")] :
                List (String × String × String)).contains (tripleOf r))) ∧
      mark_deleted [mkRow "c1" "K" "d" "A", mkRow "c1" "K" "d" "B", mkRow "c1" "K" "d" "C",
          mkRow "c1" "L" "d" "X"] "c1" [("K", "d", "A"), ("K", "d", "C")] (some ["K"]) =
        ([mkRow "c1" "K" "d" "A", mkRow "c1" "K" "d" "C", mkRow "c1" "L" "d" "X"], 1) :=
  ⟨by decide,
   (C1_mark_deleted_scope _ "c1" _ ["K"] ⟨[], []⟩ (by decide)).1,
   rfl⟩

/-! ## Upsert classification (claims C3, C9) -/

/-- The row `upsert_workload` inserts for a previously-unseen identity:
`first_seen = last_seen = now`, `deleted = 0`. -/
def insertedRow (cluster api_version kind ns name : String)
    (resource_version uid : Option String) (manifest_json manifest_hash now_s : String) :
    WorkloadRow where
  cluster := cluster
  api_version := api_version
  kind := kind
  «namespace» := ns
  name := name
  resource_version := resource_version
  uid := uid
  first_seen := now_s
  last_seen := now_s
  deleted := 0
  manifest_json := manifest_json
  manifest_hash := manifest_hash

/-- The `unchanged` branch's `UPDATE`: only `last_seen` and `deleted`. -/
def touchRow (now_s : String) (r : WorkloadRow) : WorkloadRow :=
  { r with
    last_seen := now_s,
    deleted := 0 }

/-- The `updated` branch's `UPDATE`: overwrites the passthrough metadata,
manifest and hash, bumps `last_seen`, clears `deleted`; `first_seen` (and
the identity) are not in the column list. -/
def overwriteRow (api_version : String) (resource_version uid : Option String)
    (manifest_json manifest_hash now_s : String) (r : WorkloadRow) : WorkloadRow :=
  { r with
    api_version := api_version,
    resource_version := resource_version,
    uid := uid,
    last_seen := now_s,
    manifest_json := manifest_json,
    manifest_hash := manifest_hash,
    deleted := 0 }

theorem upsert_eq_insert (db : List WorkloadRow) (c a k ns n : String)
    (rv uid : Option String) (m : JFields) (h t : String)
    (hf : db.find? (rowMatches c k ns n) = none) :
    upsert_workload db c a k ns n rv uid m h t =
      (db ++ [insertedRow c a k ns n rv uid (canonical_json (Json.obj m)) h t],
       "inserted", true) := by
  unfold upsert_workload
  rw [hf]
  rfl

theorem upsert_eq_unchanged (db : List WorkloadRow) (c a k ns n : String)
    (rv uid : Option String) (m : JFields) (h t : String) (r0 : WorkloadRow)
    (hf : db.find? (rowMatches c k ns n) = some r0)
    (hh : r0.manifest_hash = h) :
    upsert_workload db c a k ns n rv uid m h t =
      (db.map (fun r => if rowMatches c k ns n r then touchRow t r else r),
       "unchanged", r0.deleted == 1) := by
  have hhb : (r0.manifest_hash == h) = true := by simp [hh]
  unfold upsert_workload
  rw [hf]
  simp only [hhb, if_true, touchRow]

theorem upsert_eq_updated (db : List WorkloadRow) (c a k ns n : String)
    (rv uid : Option String) (m : JFields) (h t : String) (r0 : WorkloadRow)
    (hf : db.find? (rowMatches c k ns n) = some r0)
    (hh : r0.manifest_hash ≠ h) :
    upsert_workload db c a k ns n rv uid m h t =
      (db.map (fun r => if rowMatches c k ns n r then
        overwriteRow a rv uid (canonical_json (Json.obj m)) h t r else r),
       "updated", true) := by
  have hhb : (r0.manifest_hash == h) = false := by simp [hh]
  unfold upsert_workload
  rw [hf]
  simp only [hhb, Bool.false_eq_true, if_false, overwriteRow]

/-- C3: `upsert_workload` classification.  With no row at the identity it
returns `inserted` and appends a fresh row whose `first_seen` and
`last_seen` both equal `now`; with an existing row of equal hash it
returns `unchanged` and only bumps `last_seen` and clears the deleted
flag (`manifest_json`, `manifest_hash` and `first_seen` untouched); with
a differing stored hash it returns `updated`, overwriting `api_version`,
`resource_version`, `uid`, `manifest_json`, `manifest_hash` and
`last_seen` while preserving `first_seen`. -/
theorem C3_upsert_classification
    (db1 : List WorkloadRow) (c1 a1 k1 ns1 n1 : String) (rv1 uid1 : Option String)
    (m1 : JFields) (h1 t1 : String)
    (hins : db1.find? (rowMatches c1 k1 ns1 n1) = none)
    (db2 : List WorkloadRow) (c2 a2 k2 ns2 n2 : String) (rv2 uid2 : Option String)
    (m2 : JFields) (h2 t2 : String) (r2 : WorkloadRow)
    (hfind2 : db2.find? (rowMatches c2 k2 ns2 n2) = some r2)
    (hhash2 : r2.manifest_hash = h2)
    (db3 : List WorkloadRow) (c3 a3 k3 ns3 n3 : String) (rv3 uid3 : Option String)
    (m3 : JFields) (h3 t3 : String) (r3 : WorkloadRow)
    (hfind3 : db3.find? (rowMatches c3 k3 ns3 n3) = some r3)
    (hhash3 : r3.manifest_hash ≠ h3) :
    (upsert_workload db1 c1 a1 k1 ns1 n1 rv1 uid1 m1 h1 t1 =
      (db1 ++ [insertedRow c1 a1 k1 ns1 n1 rv1 uid1 (canonical_json (Json.obj m1)) h1 t1],
       "inserted", true)) ∧
    (upsert_workload db2 c2 a2 k2 ns2 n2 rv2 uid2 m2 h2 t2 =
      (db2.map (fun r => if rowMatches c2 k2 ns2 n2 r then touchRow t2 r else r),
       "unchanged", r2.deleted == 1)) ∧
    (upsert_workload db3 c3 a3 k3 ns3 n3 rv3 uid3 m3 h3 t3 =
      (db3.map (fun r => if rowMatches c3 k3 ns3 n3 r then
        overwriteRow a3 rv3 uid3 (canonical_json (Json.obj m3)) h3 t3 r else r),
       "updated", true)) :=
  ⟨upsert_eq_insert db1 c1 a1 k1 ns1 n1 rv1 uid1 m1 h1 t1 hins,
   upsert_eq_unchanged db2 c2 a2 k2 ns2 n2 rv2 uid2 m2 h2 t2 r2 hfind2 hhash2,
   upsert_eq_updated db3 c3 a3 k3 ns3 n3 rv3 uid3 m3 h3 t3 r3 hfind3 hhash3⟩

/-- C9: the boolean second component of `upsert_workload`'s result is
`true` whenever the status is `inserted` or `updated`; when the status is
`unchanged` it is `true` exactly when the stored row's `deleted` flag was
1 immediately before the call (it signals resurrection of a soft-deleted
row). -/
theorem C9_upsert_changed_flag (db : List WorkloadRow)
    (c a k ns n : String) (rv uid : Option String) (m : JFields) (h t : String) :
    (((upsert_workload db c a k ns n rv uid m h t).2.1 = "inserted" ∨
      (upsert_workload db c a k ns n rv uid m h t).2.1 = "updated") →
      (upsert_workload db c a k ns n rv uid m h t).2.2 = true) ∧
    (∀ r : WorkloadRow, db.find? (rowMatches c k ns n) = some r → r.manifest_hash = h →
      (upsert_workload db c a k ns n rv uid m h t).2.1 = "unchanged" ∧
      ((upsert_workload db c a k ns n rv uid m h t).2.2 = true ↔ r.deleted = 1)) := by
  cases hf : db.find? (rowMatches c k ns n) with
  | none =>
    rw [upsert_eq_insert db c a k ns n rv uid m h t hf]
    constructor
    · intro _
      rfl
    · intro r hr
      exact Option.noConfusion hr
  | some r0 =>
    by_cases hh : r0.manifest_hash = h
    · rw [upsert_eq_unchanged db c a k ns n rv uid m h t r0 hf hh]
      constructor
      · intro hor
        rcases hor with hs | hs <;> simp at hs
      · intro r hr _
        have hrr : r0 = r := Option.some.inj (hf ▸ hr)
        subst hrr
        simp
    · rw [upsert_eq_updated db c a k ns n rv uid m h t r0 hf hh]
      constructor
      · intro _
        rfl
      · intro r hr hrh
        have hrr : r0 = r := Option.some.inj (hf ▸ hr)
        subst hrr
        exact absurd hrh hh

/-- The spec's concrete scenario row: cluster `c1`, kind `Deployment`,
namespace `ns`, name `app`, stored hash `h1`. -/
def c3row : WorkloadRow := mkRow "c1" "Deployment" "ns" "app"

/-- Witness for C3 at the spec's concrete scenario. -/
theorem C3_witness :
    (([] : List WorkloadRow).find? (rowMatches "c1" "Deployment" "ns" "app") = none) ∧
    ([c3row].find? (rowMatches "c1" "Deployment" "ns" "app") = some c3row) ∧
    c3row.manifest_hash = "h1" ∧
    c3row.manifest_hash ≠ "h2" ∧
    (upsert_workload [] "c1" "apps/v1" "Deployment" "ns" "app" none none .nil "h1" "t1" =
      ([insertedRow "c1" "apps/v1" "Deployment" "ns" "app" none none
        (canonical_json (Json.obj .nil)) "h1" "t1"], "inserted", true)) ∧
    (upsert_workload [c3row] "c1" "apps/v1" "Deployment" "ns" "app" none none .nil "h1"
        "t2" =
      ([c3row].map (fun r => if rowMatches "c1" "Deployment" "ns" "app" r then
        touchRow "t2" r else r), "unchanged", c3row.deleted == 1)) ∧
    (upsert_workload [c3row] "c1" "apps/v1" "Deployment" "ns" "app" none none .nil "h2"
        "t2" =
      ([c3row].map (fun r => if rowMatches "c1" "Deployment" "ns" "app" r then
        overwriteRow "apps/v1" none none (canonical_json (Json.obj .nil)) "h2" "t2" r
        else r), "updated", true)) := by
  have h := C3_upsert_classification
    [] "c1" "apps/v1" "Deployment" "ns" "app" none none .nil "h1" "t1" rfl
    [c3row] "c1" "apps/v1" "Deployment" "ns" "app" none none .nil "h1" "t2" c3row rfl rfl
    [c3row] "c1" "apps/v1" "Deployment" "ns" "app" none none .nil "h2" "t2" c3row rfl
      (by decide)
  exact ⟨rfl, rfl, rfl, by decide, h.1, h.2.1, h.2.2⟩

/-- A soft-deleted row (`deleted = 1`), as `C9`'s resurrection case needs. -/
def c9row : WorkloadRow := { mkRow "c1" "K" "d" "A" with deleted := 1 }

/-- Witness for C9: re-observing a soft-deleted row with an unchanged
hash reports `unchanged` with the changed flag true (resurrection). -/
theorem C9_witness :
    ([c9row].find? (rowMatches "c1" "K" "d" "A") = some c9row) ∧
    c9row.manifest_hash = "h1" ∧
    ((upsert_workload [c9row] "c1" "v1" "K" "d" "A" none none .nil "h1" "t1").2.1 =
      "unchanged" ∧
     ((upsert_workload [c9row] "c1" "v1" "K" "d" "A" none none .nil "h1" "t1").2.2 =
      true ↔ c9row.deleted = 1)) :=
  ⟨rfl, rfl,
   (C9_upsert_changed_flag [c9row] "c1" "v1" "K" "d" "A" none none .nil "h1" "t1").2
     c9row rfl rfl⟩

/-! ## Listing client: pagination and retry ceiling (claims C5, C6) -/

theorem listGo_pages (maxR : Nat) (base : ℚ) (last : List Json)
    (prev : List (List Json × String)) (h : ∀ p ∈ prev, p.2 ≠ "") :
    ∀ (acc : List Json) (reqs : Nat) (sleeps : List ℚ),
      listGo maxR base (prev.map (fun p => Resp.page p.1 (some p.2)) ++
          [Resp.page last none]) 0 acc reqs sleeps =
        some (acc ++ ((prev.map Prod.fst).flatten ++ last), reqs + (prev.length + 1),
          sleeps) := by
  induction prev with
  | nil =>
    intro acc reqs sleeps
    simp [listGo]
  | cons p ps ih =>
    intro acc reqs sleeps
    have hp : p.2 ≠ "" := h p (List.mem_cons_self p ps)
    have hrec := ih (fun q hq => h q (List.mem_cons_of_mem p hq)) (acc ++ p.1) (reqs + 1)
      sleeps
    simp only [List.map_cons, List.cons_append, listGo]
    rw [if_pos hp]
    simp only [List.append_eq]
    rw [hrec]
    simp [List.append_assoc]
    omega

/-- C5: fed a finite scripted multi-page response in which every page but
the last carries a (non-empty) continuation token and the last page omits
it, the listing loop yields exactly the concatenation of all pages' items
in order and then terminates, having made one request per page and slept
never. -/
theorem C5_pagination_terminates (maxR : Nat) (base : ℚ) (last : List Json)
    (prev : List (List Json × String)) (h : ∀ p ∈ prev, p.2 ≠ "") :
    listGo maxR base (prev.map (fun p => Resp.page p.1 (some p.2)) ++
        [Resp.page last none]) 0 [] 0 [] =
      some ((prev.map Prod.fst).flatten ++ last, prev.length + 1, []) := by
  rw [listGo_pages maxR base last prev h [] 0 []]
  simp

/-- Witness for C5: the spec's 3-page script. -/
theorem C5_witness :
    (∀ p ∈ [([Json.num 1, Json.num 2], "t1"), ([Json.num 3], "t2")], p.2 ≠ "") ∧
    listGo 4 (1 / 2 : ℚ)
        ([([Json.num 1, Json.num 2], "t1"), ([Json.num 3], "t2")].map
          (fun p => Resp.page p.1 (some p.2)) ++ [Resp.page [Json.num 4] none]) 0 [] 0 [] =
      some (([([Json.num 1, Json.num 2], "t1"), ([Json.num 3], "t2")].map
        Prod.fst).flatten ++ [Json.num 4], 2 + 1, []) ∧
    listGo 4 (1 / 2 : ℚ) [Resp.page [Json.num 1, Json.num 2] (some "t1"),
        Resp.page [Json.num 3] (some "t2"), Resp.page [Json.num 4] none] 0 [] 0 [] =
      some ([Json.num 1, Json.num 2, Json.num 3, Json.num 4], 3, []) :=
  ⟨by decide,
   C5_pagination_terminates 4 (1 / 2 : ℚ) [Json.num 4]
     [([Json.num 1, Json.num 2], "t1"), ([Json.num 3], "t2")] (by decide),
   rfl⟩

theorem listGo_step_503 (maxR : Nat) (base : ℚ) (rest : List Resp) (a : Nat)
    (acc : List Json) (reqs : Nat) (sleeps : List ℚ) (h : a < maxR) :
    listGo maxR base (Resp.apiErr (some 503) :: rest) a acc reqs sleeps =
      listGo maxR base rest (a + 1) acc (reqs + 1) (sleeps ++ [base * 2 ^ a]) := by
  simp only [listGo, isTransient, transientStatuses]
  rw [if_neg (by decide), if_pos (by simp [h])]

theorem listGo_stop_503 (maxR : Nat) (base : ℚ) (rest : List Resp) (a : Nat)
    (acc : List Json) (reqs : Nat) (sleeps : List ℚ) (h : ¬a < maxR) :
    listGo maxR base (Resp.apiErr (some 503) :: rest) a acc reqs sleeps =
      some (acc, reqs + 1, sleeps) := by
  simp only [listGo, isTransient, transientStatuses]
  rw [if_neg (by decide), if_neg (by simp [h])]

theorem listGo_always503 (maxR : Nat) (base : ℚ) (rest : List Resp) :
    ∀ (k a : Nat), a + k = maxR →
      ∀ (acc : List Json) (reqs : Nat) (sleeps : List ℚ),
        listGo maxR base (List.replicate (k + 1) (Resp.apiErr (some 503)) ++ rest) a acc
            reqs sleeps =
          some (acc, reqs + (k + 1),
            sleeps ++ (List.range' a k).map (fun i => base * 2 ^ i)) := by
  intro k
  induction k with
  | zero =>
    intro a ha acc reqs sleeps
    have hnotlt : ¬a < maxR := by omega
    rw [show List.replicate (0 + 1) (Resp.apiErr (some 503)) ++ rest =
      Resp.apiErr (some 503) :: rest by simp]
    rw [listGo_stop_503 maxR base rest a acc reqs sleeps hnotlt]
    simp
  | succ k ih =>
    intro a ha acc reqs sleeps
    have hlt : a < maxR := by omega
    have hrec := ih (a + 1) (by omega) acc (reqs + 1) (sleeps ++ [base * 2 ^ a])
    rw [show List.replicate (k + 1 + 1) (Resp.apiErr (some 503)) ++ rest =
      Resp.apiErr (some 503) :: (List.replicate (k + 1) (Resp.apiErr (some 503)) ++ rest)
      by simp [List.replicate_succ]]
    rw [listGo_step_503 maxR base _ a acc reqs sleeps hlt, hrec]
    have hr : List.range' a (k + 1) = a :: List.range' (a + 1) k := rfl
    rw [hr]
    simp
    omega

/-- C6: against a backend that answers HTTP 503 to every request, the
listing loop makes exactly `max_retries + 1` request attempts, sleeping
`base * 2 ^ attempt` between consecutive attempts, then stops (the source
logs an error there), yielding zero items and returning normally; with
the source's defaults (`max_retries = 4`, `backoff_base = 0.5`) that is
exactly 5 attempts. -/
theorem C6_retry_ceiling (maxR : Nat) (base : ℚ) (rest : List Resp) :
    listGo maxR base (List.replicate (maxR + 1) (Resp.apiErr (some 503)) ++ rest)
        0 [] 0 [] =
      some ([], maxR + 1, (List.range maxR).map (fun a => base * 2 ^ a)) ∧
    list_resources (List.replicate 5 (Resp.apiErr (some 503))) =
      some ([], 5, [1 / 2, 1, 2, 4]) := by
  constructor
  · rw [listGo_always503 maxR base rest maxR 0 (by omega) [] 0 []]
    rw [List.range_eq_range']
    simp
  · have h1 := listGo_always503 4 (1 / 2 : ℚ) [] 4 0 (by omega) [] 0 []
    rw [show List.replicate (4 + 1) (Resp.apiErr (some 503)) ++ ([] : List Resp) =
      List.replicate 5 (Resp.apiErr (some 503)) by simp] at h1
    rw [list_resources, h1]
    norm_num [List.range']

/-! ## Sync engine structure (claims C2, C4, C10 support) -/

theorem syncItems_nil (cluster av kind now_s : String) (st : DBState)
    (ak : List (String × String × String)) (an : List String) :
    syncItems cluster av kind now_s [] st ak an = some (st, ak, an) := rfl

/-- A `sync_kind` over an empty item stream leaves the store untouched
and reports no alive keys (in particular, `mark_nodes_deleted` is not
reached, because the `alive_nodes` accumulator is empty). -/
theorem sync_kind_nil (st : DBState) (cluster av kind now_s : String) :
    sync_kind st cluster av kind [] now_s = some (st, []) := by
  unfold sync_kind
  rw [syncItems_nil]
  simp [List.isEmpty_nil]

/-- Structure of the item loop: it only ever appends to the alive-keys
and alive-nodes accumulators; every appended key carries this sync's
kind; for a Node sync the appended node names are exactly the appended
keys' name components; a non-Node sync appends no node names; an empty
stream appends nothing and keeps the store; a non-empty successful
stream appends at least one key. -/
theorem syncItems_shape (cluster av kind now_s : String) :
    ∀ (items : List Json) (st : DBState) (ak : List (String × String × String))
      (an : List String) (st' : DBState) (ak' : List (String × String × String))
      (an' : List String),
      syncItems cluster av kind now_s items st ak an = some (st', ak', an') →
      ∃ (nk : List (String × String × String)) (nn : List String),
        ak' = ak ++ nk ∧ an' = an ++ nn ∧
        (∀ key ∈ nk, key.1 = kind) ∧
        (kind = "Node" → nn = nk.map (fun t => t.2.2)) ∧
        (kind ≠ "Node" → nn = []) ∧
        (items = [] → nk = [] ∧ st' = st) ∧
        (items ≠ [] → nk ≠ []) := by
  intro items
  induction items with
  | nil =>
    intro st ak an st' ak' an' h
    rw [syncItems_nil] at h
    obtain ⟨h1, h2, h3⟩ : st = st' ∧ ak = ak' ∧ an = an' := by
      have := Option.some.inj h
      exact ⟨congrArg Prod.fst this, congrArg (fun p => p.2.1) this,
        congrArg (fun p => p.2.2) this⟩
    refine ⟨[], [], by simp [h2], by simp [h3], by simp, by simp, by simp, ?_, by simp⟩
    intro _
    exact ⟨rfl, h1.symm⟩
  | cons item rest ih =>
    intro st ak an st' ak' an' h
    simp only [syncItems] at h
    split at h
    · exact Option.noConfusion h
    case _ io hio =>
      split at h
      · exact Option.noConfusion h
      case _ meta hmeta =>
        split at h
        case _ ns name hns hname =>
          split at h
          case _ rv uid hrv huid =>
            split at h
            · exact Option.noConfusion h
            case _ st1 an1 hnode =>
              split at h
              · exact Option.noConfusion h
              case _ norm hnorm =>
                obtain ⟨nk, nn, hak, han, hkinds, hnodeEq, hnonNode, _, _⟩ :=
                  ih _ _ _ _ _ _ h
                by_cases hk : kind = "Node"
                · have hkb : (kind == "Node") = true := by simp [hk]
                  rw [hkb] at hnode
                  simp only [if_true] at hnode
                  split at hnode
                  · exact Option.noConfusion hnode
                  case _ nodes2 s c hup =>
                    have han1 : an1 = an ++ [name] := by
                      have := Option.some.inj hnode
                      exact (congrArg Prod.snd this).symm
                    refine ⟨(kind, ns, name) :: nk, name :: nn, ?_, ?_, ?_, ?_, ?_, ?_, ?_⟩
                    · rw [hak]
                      simp
                    · rw [han, han1]
                      simp
                    · intro key hkey
                      rcases List.mem_cons.mp hkey with h1 | h1
                      · rw [h1]
                      · exact hkinds key h1
                    · intro _
                      rw [hnodeEq hk]
                      simp
                    · intro hne
                      exact absurd hk hne
                    · intro habs
                      exact List.noConfusion habs
                    · intro _
                      simp
                · have hkb : (kind == "Node") = false := by simp [hk]
                  rw [hkb] at hnode
                  simp only [Bool.false_eq_true, if_false] at hnode
                  have hst1 : st1 = st ∧ an1 = an := by
                    have := Option.some.inj hnode
                    exact ⟨(congrArg Prod.fst this).symm, (congrArg Prod.snd this).symm⟩
                  refine ⟨(kind, ns, name) :: nk, nn, ?_, ?_, ?_, ?_, ?_, ?_, ?_⟩
                  · rw [hak]
                    simp
                  · rw [han, hst1.2]
                  · intro key hkey
                    rcases List.mem_cons.mp hkey with h1 | h1
                    · rw [h1]
                    · exact hkinds key h1
                  · intro hkn
                    exact absurd hkn hk
                  · intro hne
                    rw [hnonNode hne]
                  · intro habs
                    exact List.noConfusion habs
                  · intro _
                    simp
          case _ h1 h2 =>
            exact Option.noConfusion h
        case _ h1 h2 =>
          exact Option.noConfusion h

/-! ## Node tombstoning (claim C4) -/

/-- One delete step of `mark_nodes_deleted`'s loop. -/
def nodeDelStep (cluster : String) (alive_nodes : List String)
    (acc : List NodeRow × Nat) (nm : String) : List NodeRow × Nat :=
  if alive_nodes.contains nm then acc
  else (acc.1.filter (fun r => !(r.cluster == cluster && r.node_name == nm)), acc.2 + 1)

theorem mark_nodes_deleted_eq_foldl (nodes : List NodeRow) (cluster : String)
    (alive_nodes : List String) :
    mark_nodes_deleted nodes cluster alive_nodes =
      ((nodes.filter (fun r => r.cluster == cluster)).map (fun r => r.node_name)).foldl
        (nodeDelStep cluster alive_nodes) (nodes, 0) := rfl

theorem foldl_nodeDelStep_keeps (cluster : String) (alive_nodes : List String)
    (ts : List String) :
    ∀ (db0 : List NodeRow) (n : Nat) (r : NodeRow),
      r ∈ (ts.foldl (nodeDelStep cluster alive_nodes) (db0, n)).1 →
      r ∈ db0 ∧ (r.cluster == cluster → r.node_name ∈ ts → r.node_name ∈ alive_nodes) := by
  induction ts with
  | nil =>
    intro db0 n r hr
    exact ⟨hr, fun _ hmem => absurd hmem (by simp)⟩
  | cons t ts ih =>
    intro db0 n r hr
    rw [List.foldl_cons] at hr
    by_cases ha : alive_nodes.contains t
    · have ham : t ∈ alive_nodes := by simpa using ha
      rw [show nodeDelStep cluster alive_nodes (db0, n) t = (db0, n) by
        unfold nodeDelStep; rw [if_pos ha]] at hr
      obtain ⟨hmem, hc⟩ := ih db0 n r hr
      refine ⟨hmem, fun hcl hin => ?_⟩
      rcases List.mem_cons.mp hin with h1 | h1
      · rw [h1]; exact ham
      · exact hc hcl h1
    · have hab : alive_nodes.contains t = false := by
        cases hx : alive_nodes.contains t with
        | false => rfl
        | true => exact absurd hx ha
      rw [show nodeDelStep cluster alive_nodes (db0, n) t =
        (db0.filter (fun r => !(r.cluster == cluster && r.node_name == t)), n + 1) by
          unfold nodeDelStep; rw [if_neg (by rw [hab]; exact Bool.false_ne_true)]] at hr
      obtain ⟨hmem, hc⟩ := ih _ _ r hr
      have hflt := List.mem_filter.mp hmem
      refine ⟨hflt.1, fun hcl hin => ?_⟩
      rcases List.mem_cons.mp hin with h1 | h1
      · exfalso
        have := hflt.2
        rw [hcl] at this
        simp [h1] at this
      · exact hc hcl h1

/-- After `mark_nodes_deleted`, no row of the cluster survives whose
name is not in the alive set. -/
theorem mark_nodes_deleted_complete (nodes : List NodeRow) (cluster : String)
    (alive_nodes : List String) :
    (mark_nodes_deleted nodes cluster alive_nodes).1.filter
      (fun r => r.cluster == cluster && !alive_nodes.contains r.node_name) = [] := by
  rw [mark_nodes_deleted_eq_foldl]
  rw [List.filter_eq_nil_iff]
  intro r hr
  obtain ⟨hmem, hc⟩ := foldl_nodeDelStep_keeps cluster alive_nodes _ nodes 0 r hr
  intro hcontra
  simp only [Bool.and_eq_true, Bool.not_eq_true] at hcontra
  have hcl : r.cluster == cluster := hcontra.1
  have hnin : r.node_name ∉ alive_nodes := by
    simpa using hcontra.2
  apply hnin
  apply hc hcl
  exact List.mem_map.mpr ⟨r, List.mem_filter.mpr ⟨hmem, hcl⟩, rfl⟩

/-- C4 amended claim: for every Node-kind sync, `mark_nodes_deleted` runs
only when at least one node was observed (`if kind == 'Node' and
alive_nodes:`).  When the item stream is non-empty, every node_capacity
row of the cluster whose name was not observed is hard-deleted
immediately; a Node sync that observes no nodes leaves the store — and
in particular every stale node row — untouched. -/
theorem C4_node_tombstoning_amended (st : DBState) (cluster av : String)
    (items : List Json) (now_s : String) (st' : DBState)
    (ak : List (String × String × String))
    (h : sync_kind st cluster av "Node" items now_s = some (st', ak)) :
    (items = [] → st' = st ∧ ak = []) ∧
    (items ≠ [] →
      st'.nodes.filter (fun r => r.cluster == cluster &&
        !(ak.map (fun t => t.2.2)).contains r.node_name) = []) := by
  unfold sync_kind at h
  split at h
  · exact Option.noConfusion h
  case _ st1 akk ann hsync =>
    obtain ⟨nk, nn, hak, han, hkinds, hnodeEq, hnonNode, hnil, hnonnil⟩ :=
      syncItems_shape cluster av "Node" now_s items st [] [] st1 akk ann hsync
    simp only [List.nil_append] at hak han
    split at h
    case isTrue hcond =>
      have hinj := Option.some.inj h
      have hst : st' = { st1 with nodes := (mark_nodes_deleted st1.nodes cluster ann).1 } :=
        (congrArg Prod.fst hinj).symm
      have hakk : ak = akk := (congrArg Prod.snd hinj).symm
      constructor
      · intro hitems
        obtain ⟨hnk, _⟩ := hnil hitems
        have hann : ann = [] := by
          rw [han, hnodeEq rfl, hnk]
          rfl
        rw [hann] at hcond
        simp at hcond
      · intro _
        have hmap : ak.map (fun t => t.2.2) = ann := by
          rw [hakk, hak, han, hnodeEq rfl]
        rw [hst, hmap]
        exact mark_nodes_deleted_complete st1.nodes cluster ann
    case isFalse hcond =>
      have hinj := Option.some.inj h
      have hst : st' = st1 := (congrArg Prod.fst hinj).symm
      have hakk : ak = akk := (congrArg Prod.snd hinj).symm
      have hann : ann = [] := by
        cases hca : ann with
        | nil => rfl
        | cons a t =>
          exfalso
          apply hcond
          rw [hca]
          rfl
      constructor
      · intro hitems
        obtain ⟨hnk, hstx⟩ := hnil hitems
        exact ⟨hst.trans hstx, by rw [hakk, hak, hnk]⟩
      · intro hitems
        exfalso
        have hnkne := hnonnil hitems
        have hnne : nn ≠ [] := by
          rw [hnodeEq rfl]
          cases nk with
          | nil => exact absurd rfl hnkne
          | cons a t => simp
        apply hnne
        rw [← han]
        exact hann

/-- A stale node row for cluster `c1`, node `n1`. -/
def c4node : NodeRow where
  cluster := "c1"
  node_name := "n1"
  first_seen := "t0"
  last_seen := "t0"
  deleted := 0
  cpu_capacity := none
  memory_capacity := none
  storage_capacity := none
  pods_capacity := none
  cpu_allocatable := none
  memory_allocatable := none
  storage_allocatable := none
  pods_allocatable := none
  node_role := "worker"
  instance_type := none
  zone := none
  os_image := none
  kernel_version := none
  container_runtime := none

/-- C4 counterexample: a Node-kind sync that completes without observing
any node (empty item stream) does not call `mark_nodes_deleted` — the
guard is `if kind == 'Node' and alive_nodes:` — so the unobserved node
`n1`'s capacity row survives, where the claim as stated predicts it is
hard-deleted. -/
theorem C4_counterexample :
    sync_kind ⟨[], [c4node]⟩ "c1" "v1" "Node" [] "t1" = some (⟨[], [c4node]⟩, []) ∧
    (⟨[], [c4node]⟩ : DBState).nodes.filter
      (fun r => r.cluster == "c1" && r.node_name == "n1") = [c4node] :=
  ⟨rfl, rfl⟩

/-- A minimal Node item, named `n2`. -/
def c4item : Json := .obj (jfOf [("metadata", .obj (jfOf [("name", .str "n2")]))])

/-- The node row the `c4item` sync upserts. -/
def c4node2 : NodeRow where
  cluster := "c1"
  node_name := "n2"
  first_seen := "t1"
  last_seen := "t1"
  deleted := 0
  cpu_capacity := none
  memory_capacity := none
  storage_capacity := none
  pods_capacity := none
  cpu_allocatable := none
  memory_allocatable := none
  storage_allocatable := none
  pods_allocatable := none
  node_role := "worker"
  instance_type := none
  zone := none
  os_image := none
  kernel_version := none
  container_runtime := none

/-- The workload row the `c4item` sync upserts (hash checked against
`hashlib.sha256` on the same canonical JSON). -/
def c4wrow : WorkloadRow where
  cluster := "c1"
  api_version := "v1"
  kind := "Node"
  «namespace» := ""
  name := "n2"
  resource_version := none
  uid := none
  first_seen := "t1"
  last_seen := "t1"
  deleted := 0
  manifest_json := "\x7b\"metadata\":\x7b\"name\":\"n2\"\x7d\x7d"
  manifest_hash := "ffbe80a91a9e708e6ebe374914a63d4f753592acf0f86030cd129f55714020c4"

/-- Witness for the amended C4: observing node `n2` tombstones the stale
`n1` row immediately. -/
theorem C4_witness :
    ([c4item] ≠ ([] : List Json)) ∧
    sync_kind ⟨[], [c4node]⟩ "c1" "v1" "Node" [c4item] "t1" =
      some (⟨[c4wrow], [c4node2]⟩, [("Node", "", "n2")]) ∧
    (DBState.mk [c4wrow] [c4node2]).nodes.filter (fun r => r.cluster == "c1" &&
      !([(("Node" : String), ("" : String), ("n2" : String))].map
        (fun t => t.2.2)).contains r.node_name) = [] :=
  ⟨List.cons_ne_nil _ _, rfl,
   (C4_node_tombstoning_amended ⟨[], [c4node]⟩ "c1" "v1" [c4item] "t1"
     ⟨[c4wrow], [c4node2]⟩ [("Node", "", "n2")] rfl).2 (List.cons_ne_nil _ _)⟩

/-! ## Orchestration invariants (claim C2) -/

theorem sync_kind_alive_kinds (st : DBState) (cluster av kind : String)
    (items : List Json) (now_s : String) (st' : DBState)
    (ak : List (String × String × String))
    (h : sync_kind st cluster av kind items now_s = some (st', ak)) :
    ∀ key ∈ ak, key.1 = kind := by
  unfold sync_kind at h
  split at h
  · exact Option.noConfusion h
  case _ st1 akk ann hsync =>
    obtain ⟨nk, nn, hak, _, hkinds, _, _, _, _⟩ :=
      syncItems_shape cluster av kind now_s items st [] [] st1 akk ann hsync
    simp only [List.nil_append] at hak
    have hakk : ak = akk := by
      split at h <;> exact (congrArg Prod.snd (Option.some.inj h)).symm
    rw [hakk, hak]
    exact hkinds

theorem runTasks_succ_mono (cluster now_s : String) (excl : String → Bool) :
    ∀ (tasks : List KindTask) (st : DBState)
      (alive : List (String × String × String)) (succ : List String)
      (st' : DBState) (alive' : List (String × String × String)) (succ' : List String),
      runTasks cluster now_s excl tasks st alive succ = some (st', alive', succ') →
      ∀ k ∈ succ, k ∈ succ' := by
  intro tasks
  induction tasks with
  | nil =>
    intro st alive succ st' alive' succ' h k hk
    have heq : succ = succ' := congrArg (fun p => p.2.2) (Option.some.inj h)
    exact heq ▸ hk
  | cons t rest ih =>
    intro st alive succ st' alive' succ' h k hk
    rw [runTasks] at h
    split at h
    · exact ih _ _ _ _ _ _ h k hk
    case _ items hitems =>
      split at h
      · exact Option.noConfusion h
      case _ st2 ak hsk =>
        refine ih _ _ _ _ _ _ h k ?_
        by_cases hc : succ.contains t.kind = true
        · rw [if_pos hc]
          exact hk
        · rw [if_neg hc]
          exact List.mem_append_left _ hk

theorem runTasks_succ_of_fetched (cluster now_s : String) (excl : String → Bool) :
    ∀ (tasks : List KindTask) (st : DBState)
      (alive : List (String × String × String)) (succ : List String)
      (st' : DBState) (alive' : List (String × String × String)) (succ' : List String),
      runTasks cluster now_s excl tasks st alive succ = some (st', alive', succ') →
      ∀ t ∈ tasks, fetchResult excl t ≠ none → t.kind ∈ succ' := by
  intro tasks
  induction tasks with
  | nil =>
    intro st alive succ st' alive' succ' h t ht
    cases ht
  | cons t0 rest ih =>
    intro st alive succ st' alive' succ' h t ht hfetch
    rw [runTasks] at h
    rcases List.mem_cons.mp ht with h1 | h1
    · subst h1
      split at h
      case _ hnone => exact absurd hnone hfetch
      case _ items hitems =>
        split at h
        · exact Option.noConfusion h
        case _ st2 ak hsk =>
          refine runTasks_succ_mono cluster now_s excl _ _ _ _ _ _ _ h t.kind ?_
          by_cases hc : succ.contains t.kind = true
          · rw [if_pos hc]
            simpa using hc
          · rw [if_neg hc]
            exact List.mem_append_right _ (List.mem_singleton.mpr rfl)
    · split at h
      · exact ih _ _ _ _ _ _ h t h1 hfetch
      case _ items hitems =>
        split at h
        · exact Option.noConfusion h
        case _ st2 ak hsk =>
          exact ih _ _ _ _ _ _ h t h1 hfetch

theorem runTasks_no_alien_keys (cluster now_s : String) (excl : String → Bool)
    (K : String) :
    ∀ (tasks : List KindTask) (st : DBState)
      (alive : List (String × String × String)) (succ : List String)
      (st' : DBState) (alive' : List (String × String × String)) (succ' : List String),
      runTasks cluster now_s excl tasks st alive succ = some (st', alive', succ') →
      (∀ t ∈ tasks, t.kind = K → fetchResult excl t = some []) →
      (∀ key ∈ alive, key.1 ≠ K) →
      ∀ key ∈ alive', key.1 ≠ K := by
  intro tasks
  induction tasks with
  | nil =>
    intro st alive succ st' alive' succ' h _ hbase key hkey
    have heq : alive = alive' := congrArg (fun p => p.2.1) (Option.some.inj h)
    exact hbase key (heq ▸ hkey)
  | cons t0 rest ih =>
    intro st alive succ st' alive' succ' h htasks hbase key hkey
    rw [runTasks] at h
    split at h
    case _ hnone =>
      exact ih _ _ _ _ _ _ h (fun t ht => htasks t (List.mem_cons_of_mem t0 ht)) hbase
        key hkey
    case _ items hitems =>
      split at h
      · exact Option.noConfusion h
      case _ st2 ak hsk =>
        refine ih _ _ _ _ _ _ h (fun t ht => htasks t (List.mem_cons_of_mem t0 ht)) ?_
          key hkey
        intro k hk
        rcases List.mem_append.mp hk with h1 | h1
        · exact hbase k h1
        · have hkind := sync_kind_alive_kinds st cluster t0.api_version t0.kind items
            now_s st2 ak hsk k h1
          rw [hkind]
          intro hKk
          have hfetch := htasks t0 (List.mem_cons_self t0 rest) hKk
          rw [hitems] at hfetch
          have : items = [] := by
            simpa using hfetch
          subst this
          rw [sync_kind_nil] at hsk
          have hnil : ak = [] := (congrArg Prod.snd (Option.some.inj hsk)).symm
          rw [hnil] at h1
          cases h1

/-- Claim C2: when a kind's first listing request fails with HTTP 403 or
404, the listing ends cleanly with zero items and no error reported
upward (`fetch_kind_items` returns `some []`), the kind is counted among
the `successful_kinds` used as the finalize `kinds_scope`, and — having
contributed no alive keys — every previously stored workload record of
that kind for the cluster is removed by the finalize step. -/
theorem C2_unauthorized_kind_tombstoned (st : DBState) (cluster now_s : String)
    (excl : String → Bool) (tasks : List KindTask) (K av : String) (nsd : Bool)
    (s : Nat) (restScript : List Resp)
    (hK : KindTask.mk K av nsd (some (Resp.apiErr (some s) :: restScript)) ∈ tasks)
    (hs : s = 403 ∨ s = 404)
    (hnodup : (tasks.map (fun t => t.kind)).Nodup)
    (st' : DBState) (succ : List String) (removed : Nat)
    (hrun : sync_run st cluster tasks excl now_s = some (st', succ, removed)) :
    fetch_kind_items excl nsd (Resp.apiErr (some s) :: restScript) = some [] ∧
    K ∈ succ ∧
    st'.workload.filter (fun r => r.cluster == cluster && r.kind == K) = [] := by
  have hfetch : fetch_kind_items excl nsd (Resp.apiErr (some s) :: restScript) =
      some [] := by
    rcases hs with h | h <;> subst h <;> rfl
  have hfetchT : fetchResult excl
      (KindTask.mk K av nsd (some (Resp.apiErr (some s) :: restScript))) = some [] :=
    hfetch
  unfold sync_run at hrun
  split at hrun
  · exact Option.noConfusion hrun
  case _ st1 alive1 succ1 hrt =>
    have hinj := Option.some.inj hrun
    have hst' : (finalize st1 cluster alive1 (some succ1)).1 = st' :=
      congrArg (fun p => p.1) hinj
    have hsucc : succ1 = succ := congrArg (fun p => p.2.1) hinj
    have hKsucc : K ∈ succ1 :=
      runTasks_succ_of_fetched cluster now_s excl tasks st [] [] st1 alive1 succ1 hrt
        (KindTask.mk K av nsd (some (Resp.apiErr (some s) :: restScript))) hK
        (by rw [hfetchT]; exact fun hx => Option.noConfusion hx)
    have htasksK : ∀ t ∈ tasks, t.kind = K → fetchResult excl t = some [] := by
      intro t ht htk
      have hT := List.inj_on_of_nodup_map hnodup ht hK htk
      rw [hT]
      exact hfetchT
    have halien : ∀ key ∈ alive1, key.1 ≠ K :=
      runTasks_no_alien_keys cluster now_s excl K tasks st [] [] st1 alive1 succ1 hrt
        htasksK (by intro key hkey; cases hkey)
    refine ⟨hfetch, hsucc ▸ hKsucc, ?_⟩
    have hsuccne : succ1 ≠ [] := by
      intro hnil
      rw [hnil] at hKsucc
      cases hKsucc
    have hwl : st'.workload = st1.workload.filter (fun r => !(r.cluster == cluster &&
        succ1.contains r.kind && !alive1.contains (tripleOf r))) := by
      rw [← hst']
      unfold finalize
      rw [mark_deleted_scoped_char st1.workload cluster alive1 succ1 hsuccne]
    rw [hwl, List.filter_filter, List.filter_eq_nil_iff]
    intro r hr hcontra
    simp only [Bool.and_eq_true, Bool.not_eq_true', beq_iff_eq] at hcontra
    obtain ⟨⟨hclus, hkind⟩, hkeep⟩ := hcontra
    have hA : (r.cluster == cluster) = true := by simp [hclus]
    have hB : succ1.contains r.kind = true := by
      rw [hkind]
      simpa using hKsucc
    have hC : alive1.contains (tripleOf r) = false := by
      cases hc : alive1.contains (tripleOf r) with
      | false => rfl
      | true =>
        have hmem : tripleOf r ∈ alive1 := by simpa using hc
        exact absurd hkind (halien (tripleOf r) hmem)
    rw [hA, hB, hC] at hkeep
    simp at hkeep

/-- A scripted task for kind `K` whose only listing response is HTTP 403. -/
def c2task : KindTask where
  kind := "K"
  api_version := "v1"
  namespaced := true
  script := some [Resp.apiErr (some 403)]

/-- `upsert_workload` always leaves a row with the identity it was
called with: the insert branch appends one, the touch/overwrite branches
rewrite the found row in place without changing its key columns. -/
theorem upsert_workload_mem_row (db : List WorkloadRow)
    (c a k ns n : String) (rv uid : Option String) (m : JFields) (hsh now_s : String) :
    ∃ r ∈ (upsert_workload db c a k ns n rv uid m hsh now_s).1,
      r.cluster = c ∧ r.kind = k ∧ r.«namespace» = ns ∧ r.name = n := by
  unfold upsert_workload
  cases hf : db.find? (rowMatches c k ns n) with
  | none =>
    dsimp only
    exact ⟨_, List.mem_append_right _ (List.mem_singleton.mpr rfl), rfl, rfl, rfl, rfl⟩
  | some row =>
    have hrm : rowMatches c k ns n row = true := List.find?_some hf
    have hmem : row ∈ db := List.mem_of_find?_eq_some hf
    have hflds := hrm
    simp only [rowMatches, Bool.and_eq_true, beq_iff_eq] at hflds
    obtain ⟨⟨⟨h1, h2⟩, h3⟩, h4⟩ := hflds
    dsimp only
    by_cases hh : (row.manifest_hash == hsh) = true
    · rw [if_pos hh]
      refine ⟨_, List.mem_map_of_mem _ hmem, ?_⟩
      rw [if_pos hrm]
      exact ⟨h1, h2, h3, h4⟩
    · rw [if_neg hh]
      refine ⟨_, List.mem_map_of_mem _ hmem, ?_⟩
      rw [if_pos hrm]
      exact ⟨h1, h2, h3, h4⟩

/-- Claim C10: in a cluster-wide sync of a namespaced (hence non-Node)
kind, an item whose metadata has no `namespace` key is screened against
the exclusion predicate as if its namespace were `"default"`
(`exclNamespaceOf` defaults to `"default"`, and `fetch_filter` keeps or
drops the item by `excl "default"`), yet when the item survives the
filter the sync engine records its identity under the empty-string
namespace: the alive key is `(kind, "", name)` and the stored row's
namespace column is `""`. -/
theorem C10_exclusion_vs_identity_namespace (excl : String → Bool)
    (io meta : JFields)
    (hmeta : getObjOr "metadata" io = some meta)
    (hns : getKey "namespace" meta = none)
    (cluster av kind now_s : String) (hkind : kind ≠ "Node")
    (st st' : DBState) (ak : List (String × String × String))
    (hsync : sync_kind st cluster av kind [Json.obj io] now_s = some (st', ak)) :
    exclNamespaceOf (Json.obj io) = some (Json.str "default") ∧
    fetch_filter excl true [Json.obj io] =
      (if excl "default" then some [] else some [Json.obj io]) ∧
    ∃ name, getStr "name" meta = some name ∧ ak = [(kind, "", name)] ∧
      ∃ r ∈ st'.workload, r.cluster = cluster ∧ r.kind = kind ∧
        r.«namespace» = "" ∧ r.name = name := by
  have hexns : exclNamespaceOf (Json.obj io) = some (Json.str "default") := by
    simp only [exclNamespaceOf, asObj, hmeta, hns, Option.getD_none]
  refine ⟨hexns, ?_, ?_⟩
  · by_cases he : excl "default" = true
    · simp only [fetch_filter, if_true, hexns, he]
    · simp only [fetch_filter, if_true, hexns, if_neg he]
  · have hgns : getStrOr "" "namespace" meta = some "" := by
      simp only [getStrOr, hns]
    have hkn : (kind == "Node") = false := by
      simpa using hkind
    unfold sync_kind at hsync
    split at hsync
    · exact Option.noConfusion hsync
    case _ st1 akk ann hsi =>
      rw [hkn] at hsync
      simp only [Bool.false_and, if_neg Bool.false_ne_true] at hsync
      have hst1 : st1 = st' := congrArg Prod.fst (Option.some.inj hsync)
      have hakk : akk = ak := congrArg Prod.snd (Option.some.inj hsync)
      simp only [syncItems, asObj, hmeta, hgns, hkn, Bool.false_eq_true, if_false] at hsi
      split at hsi
      case _ ns name heqns heqname =>
        have hns0 : ns = "" := (Option.some.inj heqns.symm)
        subst hns0
        split at hsi
        case _ rv uid heqrv hequid =>
          split at hsi
          · exact Option.noConfusion hsi
          case _ norm hnorm =>
            simp only [syncItems, List.nil_append] at hsi
            have hsi' := Option.some.inj hsi
            simp only [Prod.mk.injEq] at hsi'
            obtain ⟨hst1', hakk', hann'⟩ := hsi'
            refine ⟨name, heqname, by rw [← hakk, ← hakk'], ?_⟩
            rw [← hst1, ← hst1']
            exact upsert_workload_mem_row st.workload cluster av kind "" name
              rv uid norm (sha256_of_manifest (Json.obj norm)) now_s
        case _ =>
          exact Option.noConfusion hsi
      case _ x y hne =>
        exact Option.noConfusion hsi

/-- Metadata of an item carrying a name but no namespace key. -/
def c10meta : JFields := jfOf [("name", Json.str "app")]

/-- The item itself. -/
def c10io : JFields := jfOf [("metadata", Json.obj c10meta)]

/-- The row the sync engine stores for that item: empty-string namespace. -/
def c10row : WorkloadRow where
  cluster := "c1"
  api_version := "apps/v1"
  kind := "Deployment"
  «namespace» := ""
  name := "app"
  resource_version := none
  uid := none
  first_seen := "t1"
  last_seen := "t1"
  deleted := 0
  manifest_json := "\x7b\"metadata\":\x7b\"name\":\"app\"\x7d\x7d"
  manifest_hash := "c2aa236a0b69ac93c70f6c16ff4f3b65395e6468c2644b2f6b73b8d4af5ce5a5"

theorem C10_witness :
    (getObjOr "metadata" c10io = some c10meta) ∧
    (getKey "namespace" c10meta = none) ∧
    ("Deployment" ≠ "Node") ∧
    (sync_kind ⟨[], []⟩ "c1" "apps/v1" "Deployment" [Json.obj c10io] "t1" =
      some (⟨[c10row], []⟩, [("Deployment", "", "app")])) ∧
    (exclNamespaceOf (Json.obj c10io) = some (Json.str "default") ∧
     fetch_filter (fun ns => ns == "openshift") true [Json.obj c10io] =
       (if (fun ns => ns == "openshift") "default" then some []
        else some [Json.obj c10io]) ∧
     ∃ name, getStr "name" c10meta = some name ∧
       ([("Deployment", "", "app")] : List (String × String × String)) =
         [("Deployment", "", name)] ∧
       ∃ r ∈ (DBState.mk [c10row] []).workload, r.cluster = "c1" ∧
         r.kind = "Deployment" ∧ r.«namespace» = "" ∧ r.name = name) :=
  ⟨rfl, rfl, by decide, rfl,
   C10_exclusion_vs_identity_namespace (fun ns => ns == "openshift") c10io c10meta rfl
     rfl "c1" "apps/v1" "Deployment" "t1" (by decide) ⟨[], []⟩ ⟨[c10row], []⟩
     [("Deployment", "", "app")] rfl⟩

theorem C2_witness :
    (KindTask.mk "K" "v1" true (some (Resp.apiErr (some 403) :: [])) ∈ [c2task]) ∧
    ((403 : Nat) = 403 ∨ (403 : Nat) = 404) ∧
    (([c2task].map (fun t => t.kind)).Nodup) ∧
    (sync_run ⟨[mkRow "c1" "K" "d" "A", mkRow "c1" "L" "d" "X"], []⟩ "c1" [c2task]
      (fun _ => false) "t1" =
      some (⟨[mkRow "c1" "L" "d" "X"], []⟩, ["K"], 1)) ∧
    (fetch_kind_items (fun _ => false) true (Resp.apiErr (some 403) :: []) = some [] ∧
     "K" ∈ ["K"] ∧
     (DBState.mk [mkRow "c1" "L" "d" "X"] []).workload.filter
       (fun r => r.cluster == "c1" && r.kind == "K") = []) :=
  ⟨List.mem_singleton.mpr rfl, Or.inl rfl, by decide, rfl,
   C2_unauthorized_kind_tombstoned ⟨[mkRow "c1" "K" "d" "A", mkRow "c1" "L" "d" "X"], []⟩
     "c1" "t1" (fun _ => false) [c2task] "K" "v1" true 403 []
     (List.mem_singleton.mpr rfl) (Or.inl rfl) (by decide) _ _ _ rfl⟩

/-! ## Claim C8: hash determinism under recursive key permutation

The claim quantifies over a dict `a` and an object `b` obtained from `a`
by recursively permuting the insertion order of its keys.  `wfJson`
captures the Python-dict invariant (each object binds a key at most
once); `keyPermJson` is the recursive key-permutation relation: equal
scalars, pointwise-related arrays, and objects of equal size in which
every field of the left object is bound — to a related value — in the
right one. -/

/-- The top-level fields of an object, as a list of pairs. -/
def JFields.toList : JFields → List (String × Json)
  | .nil => []
  | .cons k v t => (k, v) :: JFields.toList t

/-- The elements of an array, as a list. -/
def JArr.toList : JArr → List Json
  | .nil => []
  | .cons x xs => x :: JArr.toList xs

/-- No string occurs twice (executable `Nodup`). -/
def keysNodupB : List String → Bool
  | [] => true
  | k :: t => !t.contains k && keysNodupB t

mutual
/-- Python-dict well-formedness: every object anywhere in the value
binds each key at most once. -/
def wfJson : Json → Bool
  | .null => true
  | .bool _ => true
  | .num _ => true
  | .str _ => true
  | .arr xs => wfArr xs
  | .obj ps => keysNodupB (ps.toList.map Prod.fst) && wfFields ps
def wfArr : JArr → Bool
  | .nil => true
  | .cons x xs => wfJson x && wfArr xs
def wfFields : JFields → Bool
  | .nil => true
  | .cons _ v t => wfJson v && wfFields t
end

mutual
/-- `b` arises from `a` by recursively permuting the insertion order of
object keys: scalars equal, arrays pointwise related, and each object
field of the left value bound in the right object (of the same size) to
a related value. -/
def keyPermJson : Json → Json → Bool
  | .null, .null => true
  | .bool a, .bool b => a == b
  | .num a, .num b => a == b
  | .str a, .str b => a == b
  | .arr xs, .arr ys => keyPermArr xs ys
  | .obj ps, .obj qs =>
    keyPermFields ps qs && (ps.toList.length == qs.toList.length)
  | _, _ => false
def keyPermArr : JArr → JArr → Bool
  | .nil, .nil => true
  | .cons x xs, .cons y ys => keyPermJson x y && keyPermArr xs ys
  | _, _ => false
def keyPermFields : JFields → JFields → Bool
  | .nil, _ => true
  | .cons k v t, qs =>
    (match getKey k qs with
     | some w => keyPermJson v w
     | none => false) && keyPermFields t qs
end

mutual
/-- Size measure for the strong induction below. -/
def jsizeJ : Json → Nat
  | .null => 1
  | .bool _ => 1
  | .num _ => 1
  | .str _ => 1
  | .arr xs => jsizeA xs + 1
  | .obj ps => jsizeF ps + 1
def jsizeA : JArr → Nat
  | .nil => 1
  | .cons x xs => jsizeJ x + jsizeA xs + 1
def jsizeF : JFields → Nat
  | .nil => 1
  | .cons _ v t => jsizeJ v + jsizeF t + 1
end

/-- First-occurrence lookup in a serialized pair list. -/
def pairLookup (k : String) : List (String × String) → Option String
  | [] => none
  | p :: t => if p.1 = k then some p.2 else pairLookup k t

/-! ### The key order: total, antisymmetric, transitive -/

theorem char_toNat_inj (a b : Char) (h : a.toNat = b.toNat) : a = b := by
  have h2 := congrArg Char.ofNat h
  rwa [Char.ofNat_toNat, Char.ofNat_toNat] at h2

theorem charListLe_total : ∀ as bs : List Char,
    charListLe as bs = true ∨ charListLe bs as = true
  | [], _ => Or.inl rfl
  | _ :: _, [] => Or.inr rfl
  | a :: as, b :: bs => by
    by_cases hab : a = b
    · subst hab
      simp only [charListLe, if_pos rfl]
      exact charListLe_total as bs
    · have hne : a.toNat ≠ b.toNat := fun h => hab (char_toNat_inj a b h)
      have hba : b ≠ a := fun e => hab e.symm
      rcases Nat.lt_or_ge a.toNat b.toNat with h | h
      · left
        simp only [charListLe, if_neg hab]
        exact decide_eq_true h
      · right
        simp only [charListLe, if_neg hba]
        exact decide_eq_true (Nat.lt_of_le_of_ne h (fun e => hne e.symm))

theorem charListLe_antisymm : ∀ as bs : List Char,
    charListLe as bs = true → charListLe bs as = true → as = bs
  | [], [], _, _ => rfl
  | [], _ :: _, _, h2 => by simp only [charListLe] at h2; exact Bool.noConfusion h2
  | _ :: _, [], h1, _ => by simp only [charListLe] at h1; exact Bool.noConfusion h1
  | a :: as, b :: bs, h1, h2 => by
    by_cases hab : a = b
    · subst hab
      simp only [charListLe, if_pos rfl] at h1 h2
      rw [charListLe_antisymm as bs h1 h2]
    · have hba : b ≠ a := fun e => hab e.symm
      simp only [charListLe, if_neg hab] at h1
      simp only [charListLe, if_neg hba] at h2
      exact absurd (of_decide_eq_true h2) (Nat.lt_asymm (of_decide_eq_true h1))

theorem charListLe_trans : ∀ as bs cs : List Char,
    charListLe as bs = true → charListLe bs cs = true → charListLe as cs = true
  | [], _, _, _, _ => rfl
  | _ :: _, [], _, h1, _ => by simp only [charListLe] at h1; exact Bool.noConfusion h1
  | _ :: _, _ :: _, [], _, h2 => by simp only [charListLe] at h2; exact Bool.noConfusion h2
  | a :: as, b :: bs, c :: cs, h1, h2 => by
    by_cases hab : a = b <;> by_cases hbc : b = c
    · subst hab; subst hbc
      simp only [charListLe, if_pos rfl] at h1 h2 ⊢
      exact charListLe_trans as bs cs h1 h2
    · subst hab
      simp only [charListLe, if_neg hbc] at h2 ⊢
      exact h2
    · subst hbc
      simp only [charListLe, if_neg hab] at h1 ⊢
      exact h1
    · simp only [charListLe, if_neg hab] at h1
      simp only [charListLe, if_neg hbc] at h2
      have hlt : a.toNat < c.toNat :=
        Nat.lt_trans (of_decide_eq_true h1) (of_decide_eq_true h2)
      have hac : a ≠ c := fun e => Nat.ne_of_lt hlt (congrArg Char.toNat e)
      simp only [charListLe, if_neg hac]
      exact decide_eq_true hlt

theorem keyLe_total (a b : String) : keyLe a b = true ∨ keyLe b a = true :=
  charListLe_total a.data b.data

theorem keyLe_antisymm (a b : String) (h1 : keyLe a b = true) (h2 : keyLe b a = true) :
    a = b := by
  have hd := charListLe_antisymm a.data b.data h1 h2
  cases a with
  | mk da =>
    cases b with
    | mk db => exact congrArg String.mk hd

theorem keyLe_trans (a b c : String) (h1 : keyLe a b = true) (h2 : keyLe b c = true) :
    keyLe a c = true :=
  charListLe_trans a.data b.data c.data h1 h2

/-! ### Sorted association lists with distinct keys -/

theorem pairLookup_mem (k : String) : ∀ (l : List (String × String)) (s : String),
    pairLookup k l = some s → (k, s) ∈ l
  | [], _, h => Option.noConfusion h
  | p :: t, s, h => by
    rw [pairLookup] at h
    by_cases hp : p.1 = k
    · rw [if_pos hp] at h
      have hs : p.2 = s := Option.some.inj h
      have : (k, s) = p := by rw [← hp, ← hs]
      rw [this]
      exact List.mem_cons_self p t
    · rw [if_neg hp] at h
      exact List.mem_cons_of_mem p (pairLookup_mem k t s h)

theorem pairLookup_eq_none (k : String) : ∀ (l : List (String × String)),
    k ∉ l.map Prod.fst → pairLookup k l = none
  | [], _ => rfl
  | p :: t, h => by
    rw [pairLookup]
    have hp : p.1 ≠ k := by
      intro e
      exact h (by rw [← e]; exact List.mem_map_of_mem Prod.fst (List.mem_cons_self p t))
    rw [if_neg hp]
    exact pairLookup_eq_none k t (fun hm => h (List.mem_cons_of_mem _ hm))

theorem mem_pairLookup (k s : String) : ∀ (l : List (String × String)),
    (l.map Prod.fst).Nodup → (k, s) ∈ l → pairLookup k l = some s
  | [], _, hm => absurd hm (List.not_mem_nil _)
  | p :: t, hn, hm => by
    rw [List.map_cons, List.nodup_cons] at hn
    rw [pairLookup]
    rcases List.mem_cons.mp hm with he | hm2
    · rw [← he]
      rw [if_pos rfl]
    · have hp : p.1 ≠ k := by
        intro e
        exact hn.1 (e ▸ (List.mem_map_of_mem Prod.fst hm2 : (k, s).1 ∈ t.map Prod.fst))
      rw [if_neg hp]
      exact mem_pairLookup k s t hn.2 hm2

theorem insertPair_perm (p : String × String) : ∀ l : List (String × String),
    List.Perm (insertPair p l) (p :: l)
  | [] => List.Perm.refl _
  | q :: t => by
    rw [insertPair]
    by_cases hle : keyLe p.1 q.1 = true
    · rw [if_pos hle]
    · rw [if_neg hle]
      exact ((insertPair_perm p t).cons q).trans (List.Perm.swap p q t)

theorem sortPairs_perm : ∀ l : List (String × String), List.Perm (sortPairs l) l
  | [] => List.Perm.refl _
  | p :: t => (insertPair_perm p (sortPairs t)).trans ((sortPairs_perm t).cons p)

theorem insertPair_pairwise (p : String × String) :
    ∀ l : List (String × String),
    List.Pairwise (fun x y => keyLe x.1 y.1 = true) l →
    List.Pairwise (fun x y => keyLe x.1 y.1 = true) (insertPair p l)
  | [], _ => List.pairwise_singleton _ p
  | q :: t, h => by
    rw [List.pairwise_cons] at h
    rw [insertPair]
    by_cases hle : keyLe p.1 q.1 = true
    · rw [if_pos hle]
      refine List.Pairwise.cons ?_ (List.Pairwise.cons h.1 h.2)
      intro x hx
      rcases List.mem_cons.mp hx with he | hx2
      · rw [he]
        exact hle
      · exact keyLe_trans p.1 q.1 x.1 hle (h.1 x hx2)
    · rw [if_neg hle]
      refine List.Pairwise.cons ?_ (insertPair_pairwise p t h.2)
      intro x hx
      rcases List.mem_cons.mp ((insertPair_perm p t).mem_iff.mp hx) with he | hx2
      · rw [he]
        rcases keyLe_total p.1 q.1 with h1 | h1
        · exact absurd h1 hle
        · exact h1
      · exact h.1 x hx2

theorem sortPairs_sorted : ∀ l : List (String × String),
    List.Pairwise (fun x y => keyLe x.1 y.1 = true) (sortPairs l)
  | [] => List.Pairwise.nil
  | p :: t => insertPair_pairwise p (sortPairs t) (sortPairs_sorted t)

theorem keysNodupB_iff : ∀ ks : List String, keysNodupB ks = true ↔ ks.Nodup
  | [] => by simp [keysNodupB]
  | k :: t => by
    rw [keysNodupB, List.nodup_cons, ← keysNodupB_iff t]
    simp

/-- Two key-sorted pair lists with pairwise-distinct keys and identical
lookups are identical. -/
theorem sortedPairs_ext : ∀ l1 l2 : List (String × String),
    List.Pairwise (fun x y => keyLe x.1 y.1 = true) l1 →
    List.Pairwise (fun x y => keyLe x.1 y.1 = true) l2 →
    (l1.map Prod.fst).Nodup → (l2.map Prod.fst).Nodup →
    (∀ k, pairLookup k l1 = pairLookup k l2) → l1 = l2
  | [], [], _, _, _, _, _ => rfl
  | [], q :: t2, _, _, _, _, hl => by
    have h := hl q.1
    rw [pairLookup, pairLookup, if_pos rfl] at h
    exact Option.noConfusion h
  | p :: t1, [], _, _, _, _, hl => by
    have h := hl p.1
    rw [pairLookup, pairLookup, if_pos rfl] at h
    exact Option.noConfusion h
  | p :: t1, q :: t2, hs1, hs2, hn1, hn2, hl => by
    rw [List.pairwise_cons] at hs1 hs2
    rw [List.map_cons, List.nodup_cons] at hn1 hn2
    have hp2 : pairLookup p.1 (q :: t2) = some p.2 := by
      rw [← hl p.1, pairLookup, if_pos rfl]
    have hq2 : pairLookup q.1 (p :: t1) = some q.2 := by
      rw [hl q.1, pairLookup, if_pos rfl]
    have hkey : p.1 = q.1 := by
      rcases List.mem_cons.mp (pairLookup_mem p.1 (q :: t2) p.2 hp2) with he | hm
      · exact congrArg Prod.fst he
      · rcases List.mem_cons.mp (pairLookup_mem q.1 (p :: t1) q.2 hq2) with he2 | hm2
        · exact (congrArg Prod.fst he2).symm
        · exact keyLe_antisymm p.1 q.1
            (hs1.1 (q.1, q.2) hm2) (hs2.1 (p.1, p.2) hm)
    have hval : p.2 = q.2 := by
      rw [pairLookup, if_pos hkey.symm] at hp2
      exact (Option.some.inj hp2).symm
    have hpq : p = q := Prod.ext hkey hval
    rw [hpq]
    rw [sortedPairs_ext t1 t2 hs1.2 hs2.2 hn1.2 hn2.2 ?_]
    intro k
    by_cases hk : k = q.1
    · rw [hk]
      rw [pairLookup_eq_none q.1 t1 (hpq ▸ hn1.1), pairLookup_eq_none q.1 t2 hn2.1]
    · have hp1 : ¬ p.1 = k := fun e => hk (by rw [← e, hkey])
      have hq1 : ¬ q.1 = k := fun e => hk e.symm
      have h := hl k
      rw [pairLookup, pairLookup, if_neg hp1, if_neg hq1] at h
      exact h

/-! ### Bridges between field sequences and pair lists -/

/-- Structural induction for arrays alone. -/
@[induction_eliminator]
theorem JArr.structuralInduction {motive : JArr → Prop} (l : JArr)
    (nil : motive .nil)
    (cons : ∀ (x : Json) (t : JArr), motive t → motive (.cons x t)) :
    motive l :=
  match l with
  | .nil => nil
  | .cons x t => cons x t (JArr.structuralInduction t nil cons)

theorem serPairs_eq_map (ps : JFields) :
    serPairs ps = ps.toList.map (fun p => (p.1, serialize p.2)) := by
  induction ps with
  | nil => rfl
  | cons k v t ih => simp only [serPairs, JFields.toList, List.map_cons, ih]

theorem getKey_mem_toList (k : String) : ∀ (ps : JFields) (w : Json),
    getKey k ps = some w → (k, w) ∈ ps.toList
  | .nil, _, h => Option.noConfusion h
  | .cons k' v t, w, h => by
    rw [getKey] at h
    by_cases hk : k' = k
    · rw [if_pos hk] at h
      have hv : v = w := Option.some.inj h
      rw [JFields.toList, ← hk, ← hv]
      exact List.mem_cons_self _ _
    · rw [if_neg hk] at h
      exact List.mem_cons_of_mem _ (getKey_mem_toList k t w h)

theorem mem_toList_getKey (k : String) : ∀ (ps : JFields) (w : Json),
    (ps.toList.map Prod.fst).Nodup → (k, w) ∈ ps.toList → getKey k ps = some w
  | .nil, _, _, hm => absurd hm (List.not_mem_nil _)
  | .cons k' v t, w, hn, hm => by
    rw [JFields.toList, List.map_cons, List.nodup_cons] at hn
    rw [JFields.toList] at hm
    rw [getKey]
    rcases List.mem_cons.mp hm with he | hm2
    · have h1 : k' = k := (congrArg Prod.fst he).symm
      have h2 : v = w := (congrArg Prod.snd he).symm
      rw [if_pos h1, h2]
    · have hk : k' ≠ k := by
        intro e
        exact hn.1 (e ▸ (List.mem_map_of_mem Prod.fst hm2 : (k, w).1 ∈ t.toList.map Prod.fst))
      rw [if_neg hk]
      exact mem_toList_getKey k t w hn.2 hm2

theorem keyPermFields_lookup : ∀ (ps qs : JFields), keyPermFields ps qs = true →
    ∀ k v, (k, v) ∈ ps.toList → ∃ w, getKey k qs = some w ∧ keyPermJson v w = true
  | .nil, _, _, _, _, hm => absurd hm (List.not_mem_nil _)
  | .cons k0 v0 t, qs, h, k, v, hm => by
    rw [keyPermFields, Bool.and_eq_true] at h
    rw [JFields.toList] at hm
    rcases List.mem_cons.mp hm with he | hm2
    · have h1 : k0 = k := (congrArg Prod.fst he).symm
      have h2 : v0 = v := (congrArg Prod.snd he).symm
      rcases hg : getKey k0 qs with _ | w
      · rw [hg] at h
        exact Bool.noConfusion h.1
      · rw [hg] at h
        exact ⟨w, by rw [← h1]; exact hg, by rw [← h2]; exact h.1⟩
    · exact keyPermFields_lookup t qs h.2 k v hm2

theorem wfFields_mem : ∀ (ps : JFields), wfFields ps = true →
    ∀ k v, (k, v) ∈ ps.toList → wfJson v = true
  | .nil, _, _, _, hm => absurd hm (List.not_mem_nil _)
  | .cons k0 v0 t, h, k, v, hm => by
    rw [wfFields, Bool.and_eq_true] at h
    rw [JFields.toList] at hm
    rcases List.mem_cons.mp hm with he | hm2
    · have h2 : v0 = v := (congrArg Prod.snd he).symm
      rw [← h2]
      exact h.1
    · exact wfFields_mem t h.2 k v hm2

theorem jsizeF_mem : ∀ (ps : JFields) (k : String) (v : Json),
    (k, v) ∈ ps.toList → jsizeJ v < jsizeF ps
  | .nil, _, _, hm => absurd hm (List.not_mem_nil _)
  | .cons k0 v0 t, k, v, hm => by
    rw [JFields.toList] at hm
    rw [jsizeF]
    rcases List.mem_cons.mp hm with he | hm2
    · have h2 : v0 = v := (congrArg Prod.snd he).symm
      rw [h2]
      omega
    · have := jsizeF_mem t k v hm2
      omega

theorem jsizeA_mem : ∀ (xs : JArr) (x : Json), x ∈ xs.toList → jsizeJ x < jsizeA xs
  | .nil, _, hm => absurd hm (List.not_mem_nil _)
  | .cons x0 t, x, hm => by
    rw [JArr.toList] at hm
    rw [jsizeA]
    rcases List.mem_cons.mp hm with he | hm2
    · rw [he]
      omega
    · have := jsizeA_mem t x hm2
      omega

/-! ### Serialization is invariant under recursive key permutation -/

theorem serialize_keyPerm_aux : ∀ n : Nat, ∀ a b : Json, jsizeJ a < n →
    wfJson a = true → keyPermJson a b = true → serialize a = serialize b := by
  intro n
  induction n with
  | zero =>
    intro a b h _ _
    exact absurd h (Nat.not_lt_zero _)
  | succ n ih =>
    intro a b hsz hwf hperm
    cases a <;> cases b <;> try exact Bool.noConfusion hperm
    case null.null => rfl
    case bool.bool v w =>
      have h : (v == w) = true := hperm
      have h2 : v = w := by simpa using h
      rw [h2]
    case num.num v w =>
      have h : (v == w) = true := hperm
      have h2 : v = w := by simpa using h
      rw [h2]
    case str.str v w =>
      have h : (v == w) = true := hperm
      have h2 : v = w := by simpa using h
      rw [h2]
    case arr.arr xs ys =>
      have hpa : keyPermArr xs ys = true := hperm
      have hwa : wfArr xs = true := hwf
      have hszA : jsizeA xs ≤ n := by
        have h0 : jsizeA xs + 1 < n + 1 := hsz
        omega
      have go : ∀ (zs : JArr), jsizeA zs ≤ n → wfArr zs = true →
          ∀ ws, keyPermArr zs ws = true → serArr zs = serArr ws := by
        intro zs
        induction zs with
        | nil =>
          intro _ _ ws hp
          cases ws with
          | nil => rfl
          | cons y t2 => exact Bool.noConfusion hp
        | cons x t iht =>
          intro hsz2 hw ws hp
          cases ws with
          | nil => exact Bool.noConfusion hp
          | cons y t2 =>
            have hp2 : (keyPermJson x y && keyPermArr t t2) = true := hp
            rw [Bool.and_eq_true] at hp2
            have hw2 : (wfJson x && wfArr t) = true := hw
            rw [Bool.and_eq_true] at hw2
            have hs0 : jsizeJ x + jsizeA t + 1 ≤ n := hsz2
            have hsx : jsizeJ x < n := by omega
            have hst : jsizeA t ≤ n := by omega
            have h1 := ih x y hsx hw2.1 hp2.1
            have h2 := iht hst hw2.2 t2 hp2.2
            simp only [serArr, h1, h2]
      have hs : serArr xs = serArr ys := go xs hszA hwa ys hpa
      simp only [serialize, hs]
    case obj.obj ps qs =>
      have hpo : (keyPermFields ps qs && (ps.toList.length == qs.toList.length)) = true :=
        hperm
      rw [Bool.and_eq_true] at hpo
      have hwo : (keysNodupB (ps.toList.map Prod.fst) && wfFields ps) = true := hwf
      rw [Bool.and_eq_true] at hwo
      have hpnodup : (ps.toList.map Prod.fst).Nodup := (keysNodupB_iff _).mp hwo.1
      have hlen : ps.toList.length = qs.toList.length := by simpa using hpo.2
      have hszF : jsizeF ps ≤ n := by
        have h0 : jsizeF ps + 1 < n + 1 := hsz
        omega
      have hsub : ps.toList.map Prod.fst ⊆ qs.toList.map Prod.fst := by
        intro k hk
        rcases List.mem_map.mp hk with ⟨p, hp, hpk⟩
        obtain ⟨w, hg, _⟩ := keyPermFields_lookup ps qs hpo.1 p.1 p.2 hp
        rw [← hpk]
        exact List.mem_map.mpr ⟨(p.1, w), getKey_mem_toList p.1 qs w hg, rfl⟩
      have hperm_keys :
          List.Perm (ps.toList.map Prod.fst) (qs.toList.map Prod.fst) :=
        (List.subperm_of_subset hpnodup hsub).perm_of_length_le
          (by rw [List.length_map, List.length_map, hlen])
      have hqnodup : (qs.toList.map Prod.fst).Nodup := hperm_keys.nodup hpnodup
      have hmem_iff : ∀ k s, (k, s) ∈ serPairs ps ↔ (k, s) ∈ serPairs qs := by
        intro k s
        constructor
        · intro hm
          rw [serPairs_eq_map] at hm
          rcases List.mem_map.mp hm with ⟨p, hp, hpe⟩
          have hk : p.1 = k := congrArg Prod.fst hpe
          have hs : serialize p.2 = s := congrArg Prod.snd hpe
          obtain ⟨w, hg, hkp⟩ := keyPermFields_lookup ps qs hpo.1 p.1 p.2 hp
          have hwfv : wfJson p.2 = true := wfFields_mem ps hwo.2 p.1 p.2 hp
          have hszv : jsizeJ p.2 < n :=
            Nat.lt_of_lt_of_le (jsizeF_mem ps p.1 p.2 hp) hszF
          have hser := ih p.2 w hszv hwfv hkp
          rw [serPairs_eq_map]
          refine List.mem_map.mpr ⟨(p.1, w), getKey_mem_toList p.1 qs w hg, ?_⟩
          show (p.1, serialize w) = (k, s)
          refine Prod.ext hk ?_
          rw [← hser]
          exact hs
        · intro hm
          rw [serPairs_eq_map] at hm
          rcases List.mem_map.mp hm with ⟨q, hq, hqe⟩
          have hk : q.1 = k := congrArg Prod.fst hqe
          have hs : serialize q.2 = s := congrArg Prod.snd hqe
          have hkq : q.1 ∈ qs.toList.map Prod.fst := List.mem_map_of_mem Prod.fst hq
          have hkp : q.1 ∈ ps.toList.map Prod.fst := hperm_keys.mem_iff.mpr hkq
          rcases List.mem_map.mp hkp with ⟨p, hp, hpk⟩
          obtain ⟨w, hg, hkpw⟩ := keyPermFields_lookup ps qs hpo.1 p.1 p.2 hp
          have hgq : getKey q.1 qs = some q.2 := mem_toList_getKey q.1 qs q.2 hqnodup hq
          have hw : w = q.2 := by
            rw [hpk] at hg
            rw [hg] at hgq
            exact Option.some.inj hgq
          have hwfv : wfJson p.2 = true := wfFields_mem ps hwo.2 p.1 p.2 hp
          have hszv : jsizeJ p.2 < n :=
            Nat.lt_of_lt_of_le (jsizeF_mem ps p.1 p.2 hp) hszF
          have hser := ih p.2 w hszv hwfv hkpw
          rw [serPairs_eq_map]
          refine List.mem_map.mpr ⟨p, hp, ?_⟩
          show (p.1, serialize p.2) = (k, s)
          refine Prod.ext (by rw [hpk, hk]) ?_
          rw [hser, hw, hs]
      have hkeysP : (serPairs ps).map Prod.fst = ps.toList.map Prod.fst := by
        rw [serPairs_eq_map, List.map_map]
        rfl
      have hkeysQ : (serPairs qs).map Prod.fst = qs.toList.map Prod.fst := by
        rw [serPairs_eq_map, List.map_map]
        rfl
      have hnodupSP : ((sortPairs (serPairs ps)).map Prod.fst).Nodup := by
        refine (((sortPairs_perm (serPairs ps)).map Prod.fst).nodup_iff).mpr ?_
        rw [hkeysP]
        exact hpnodup
      have hnodupSQ : ((sortPairs (serPairs qs)).map Prod.fst).Nodup := by
        refine (((sortPairs_perm (serPairs qs)).map Prod.fst).nodup_iff).mpr ?_
        rw [hkeysQ]
        exact hqnodup
      have hsort : sortPairs (serPairs ps) = sortPairs (serPairs qs) := by
        refine sortedPairs_ext _ _ (sortPairs_sorted _) (sortPairs_sorted _)
          hnodupSP hnodupSQ ?_
        intro k
        cases hp : pairLookup k (sortPairs (serPairs ps)) with
        | some s =>
          have hm1 : (k, s) ∈ sortPairs (serPairs ps) := pairLookup_mem k _ s hp
          have hm2 : (k, s) ∈ serPairs ps := (sortPairs_perm _).mem_iff.mp hm1
          have hm3 : (k, s) ∈ serPairs qs := (hmem_iff k s).mp hm2
          have hm4 : (k, s) ∈ sortPairs (serPairs qs) := (sortPairs_perm _).mem_iff.mpr hm3
          rw [mem_pairLookup k s _ hnodupSQ hm4]
        | none =>
          cases hq : pairLookup k (sortPairs (serPairs qs)) with
          | none => rfl
          | some s =>
            exfalso
            have hm1 : (k, s) ∈ sortPairs (serPairs qs) := pairLookup_mem k _ s hq
            have hm2 : (k, s) ∈ serPairs qs := (sortPairs_perm _).mem_iff.mp hm1
            have hm3 : (k, s) ∈ serPairs ps := (hmem_iff k s).mpr hm2
            have hm4 : (k, s) ∈ sortPairs (serPairs ps) :=
              (sortPairs_perm _).mem_iff.mpr hm3
            rw [mem_pairLookup k s _ hnodupSP hm4] at hp
            exact Option.noConfusion hp
      simp only [serialize, hsort]

/-- Claim C8: for every well-formed dict `a` (each object binds a key at
most once, as every Python dict does) and every object `b` obtained from
`a` by recursively permuting the insertion order of its keys, the content
hash is identical — `canonical_json` serializes with sorted keys and no
extraneous whitespace before hashing, so `sha256_of_manifest a =
sha256_of_manifest b`. -/
theorem C8_hash_key_permutation (a b : Json) (hwf : wfJson a = true)
    (hperm : keyPermJson a b = true) :
    sha256_of_manifest a = sha256_of_manifest b := by
  have hser : serialize a = serialize b :=
    serialize_keyPerm_aux (jsizeJ a + 1) a b (Nat.lt_succ_self _) hwf hperm
  unfold sha256_of_manifest canonical_json
  rw [hser]

/-- A nested object: keys out of order at every level. -/
def c8a : Json :=
  .obj (jfOf [("b", .num 1),
              ("a", .obj (jfOf [("y", .str "v"), ("x", .null)])),
              ("c", .arr (jaOf [.obj (jfOf [("q", .bool true), ("p", .num 2)])]))])

/-- The same value with every object's key order permuted. -/
def c8b : Json :=
  .obj (jfOf [("a", .obj (jfOf [("x", .null), ("y", .str "v")])),
              ("c", .arr (jaOf [.obj (jfOf [("p", .num 2), ("q", .bool true)])])),
              ("b", .num 1)])

theorem C8_witness :
    wfJson c8a = true ∧ keyPermJson c8a c8b = true ∧
      sha256_of_manifest c8a = sha256_of_manifest c8b :=
  ⟨rfl, rfl, C8_hash_key_permutation c8a c8b rfl rfl⟩
